import Mathlib

/-! Room manager of the pair-programming backend.

A shallow embedding of `backend-go/internal/services/room_manager.go`
(`RoomManager.Run`, `RoomManager.BroadcastUserList`, `RoomManager.BroadcastToRoom`) and
of the dispatcher of `backend-go/internal/handlers/websocket.go` (`handleMessage` and
the three handlers), together with the parts of the Go runtime their behaviour depends
on:

* Go maps are association lists (`GoMap`); the order of the list stands for the
  unspecified iteration order of the map, so every theorem below holds for every
  iteration order;
* a `chan []byte` is a reference (`Nat`) into a heap of channel states (`Chan`);
  `close` of a closed channel and a send on a closed channel panic, which the
  embedding renders as `none`;
* a `*time.Timer` made by `time.AfterFunc` is a `Timer`: a fresh identity plus the
  client captured by its callback; the timers that can still fire are kept in
  `State.timers`;
* `rm.BroadcastToRoom(..)` hands a request to the `broadcast` channel and
  `go rm.BroadcastUserList(..)` starts a goroutine: both are recorded as `Effect`s of
  the step that performs them.

Each case of the `select` in `Run`, and the timer callback, runs under `rm.mu` and is
one atomic step here.
-/

namespace RoomManager

/-! ## Go maps -/

/-- A Go `map[α]β` as an association list. -/
abbrev GoMap (α β : Type) := List (α × β)

/-- The lookup `v, ok := m[a]`. -/
def mapGet {α β : Type} [DecidableEq α] : GoMap α β → α → Option β
  | [], _ => none
  | (k, v) :: m, a => if k = a then some v else mapGet m a

/-- The statement `delete(m, a)`. -/
def mapDelete {α β : Type} [DecidableEq α] (m : GoMap α β) (a : α) : GoMap α β :=
  m.filter (fun p => decide (p.1 ≠ a))

/-- The assignment `m[a] = b`. -/
def mapSet {α β : Type} [DecidableEq α] : GoMap α β → α → β → GoMap α β
  | [], a, b => [(a, b)]
  | (k, v) :: m, a, b => if k = a then (a, b) :: m else (k, v) :: mapSet m a b

/-! ## Data model -/

/-- The struct `models.UserPresence`. -/
structure UserPresence where
  UserID : String
  Username : String
  Status : String
deriving DecidableEq, Repr

/-- The struct `models.Message`; a `time.Time` is a number. -/
structure Message where
  RoomID : String
  MessageID : String
  UserID : String
  Username : String
  Text : String
  Timestamp : Nat
deriving DecidableEq, Repr

/-- The payload of a `models.WSMessage` (`interface{}` in the source): the
`map[string]interface{}` with `userId` and `username` of the presence events, the
`[]models.UserPresence` of `user_list`, the `models.Message` of a chat envelope built
by the server, or any other JSON value (what a client sends). -/
inductive Payload where
  | user (userId username : String)
  | users (list : List UserPresence)
  | message (m : Message)
  | json (raw : String)
deriving DecidableEq, Repr

/-- The struct `models.WSMessage`. A broadcast `Message []byte` is always the
`json.Marshal` of such an envelope and is represented by the envelope itself. -/
structure WSMessage where
  type : String
  payload : Payload
deriving DecidableEq, Repr

/-- The state of one `chan []byte`: buffered items (oldest first), capacity, and
whether it has been closed. -/
structure Chan where
  buf : List WSMessage
  cap : Nat
  closed : Bool
deriving DecidableEq, Repr

/-- The channel `make(chan []byte, 256)` of `HandleWebSocket` (websocket.go:64). -/
def newChan : Chan := { buf := [], cap := 256, closed := false }

/-- The struct `Client`. `Send` is the reference of the client's channel; `Conn` plays
no part in the manager and is left out. -/
structure Client where
  ConnID : String
  UserID : String
  Username : String
  RoomID : String
  Send : Nat
deriving DecidableEq, Repr

/-- The struct `BroadcastMessage`. -/
structure BroadcastMessage where
  RoomID : String
  Message : WSMessage
  Exclude : String
deriving DecidableEq, Repr

/-- A timer made by `time.AfterFunc` in the `unregister` case: its identity and the
`client` its callback closes over. -/
structure Timer where
  id : Nat
  client : Client
deriving DecidableEq, Repr

/-- What a step hands to other goroutines: a request put on `rm.broadcast` by
`BroadcastToRoom`, or a `go rm.BroadcastUserList(roomID)`. -/
inductive Effect where
  | submit (msg : BroadcastMessage)
  | spawnUserList (roomID : String)
deriving DecidableEq, Repr

/-- The fields `rooms` and `pendingLeaves` of `RoomManager`, the heap of client
channels, the timers that have been started and have neither fired nor been stopped,
and the identity of the next timer. A channel absent from `chans` is a channel as
`HandleWebSocket` makes it (`newChan`). -/
structure State where
  rooms : GoMap String (GoMap String Client)
  pendingLeaves : GoMap String Timer
  chans : GoMap Nat Chan
  timers : List Timer
  nextTimer : Nat
deriving DecidableEq, Repr

/-- The manager of `NewRoomManager`: no room, no pending leave, no timer. -/
def State.init : State :=
  { rooms := [], pendingLeaves := [], chans := [], timers := [], nextTimer := 0 }

/-! ## Channels -/

/-- The channel behind a reference. -/
def chanAt (h : GoMap Nat Chan) (r : Nat) : Chan := (mapGet h r).getD newChan

/-- The statement `close(ch)`: panics (`none`) on a closed channel. -/
def closeChan (h : GoMap Nat Chan) (r : Nat) : Option (GoMap Nat Chan) :=
  if (chanAt h r).closed then none
  else some (mapSet h r { chanAt h r with closed := true })

/-- Outcome of `select { case ch <- m: default: }`. -/
inductive SendResult where
  | sent (h : GoMap Nat Chan)
  | full
  | panicked
deriving DecidableEq, Repr

/-- The non-blocking send `select { case ch <- m: default: }`: a send on a closed
channel panics, a send on a channel with room appends to its buffer, otherwise the
`default` branch is taken. -/
def trySend (h : GoMap Nat Chan) (r : Nat) (m : WSMessage) : SendResult :=
  if (chanAt h r).closed then SendResult.panicked
  else if (chanAt h r).buf.length < (chanAt h r).cap then
    SendResult.sent (mapSet h r { chanAt h r with buf := (chanAt h r).buf ++ [m] })
  else SendResult.full

/-! ## The manager -/

/-- The envelope `models.WSMessage{Type: "user_joined", Payload: {userId, username}}`. -/
def joinMsg (client : Client) : WSMessage :=
  { type := "user_joined", payload := Payload.user client.UserID client.Username }

/-- The envelope `models.WSMessage{Type: "user_left", Payload: {userId, username}}`. -/
def leftMsg (client : Client) : WSMessage :=
  { type := "user_left", payload := Payload.user client.UserID client.Username }

/-- The call `rm.BroadcastToRoom(roomID, message, excludeUserID)`: one request on the
`broadcast` channel. -/
def BroadcastToRoom (roomID : String) (message : WSMessage) (excludeUserID : String) : Effect :=
  Effect.submit { RoomID := roomID, Message := message, Exclude := excludeUserID }

/-- The entry `models.UserPresence{UserID, Username, Status: "online"}` appended for a
client. -/
def presenceOf (client : Client) : UserPresence :=
  { UserID := client.UserID, Username := client.Username, Status := "online" }

/-- The loop of `BroadcastUserList` over `clients`, carrying `userList` and
`seenUsers` (the keys set to `true`). -/
def userListLoop : List (String × Client) → List UserPresence → List String → List UserPresence
  | [], userList, _ => userList
  | (_, client) :: rest, userList, seenUsers =>
    if client.UserID ∈ seenUsers then userListLoop rest userList seenUsers
    else userListLoop rest (userList ++ [presenceOf client]) (client.UserID :: seenUsers)

/-- The slice `userList` built by `BroadcastUserList` for a room: the room's clients
(none when the room has no entry), first occurrence of each user id kept. -/
def userList (s : State) (roomID : String) : List UserPresence :=
  userListLoop ((mapGet s.rooms roomID).getD []) [] []

/-- The method `RoomManager.BroadcastUserList`: the request it submits. -/
def BroadcastUserList (s : State) (roomID : String) : Effect :=
  BroadcastToRoom roomID { type := "user_list", payload := Payload.users (userList s roomID) } ""

/-- The scan `for _, c := range clients { if c.UserID == userID { .. break } }`: whether
some client of the map has the user id. -/
def hasUser (clients : GoMap String Client) (userID : String) : Bool :=
  clients.any (fun p => decide (p.2.UserID = userID))

/-- The call `timer.Stop()`: the timer will not fire. -/
def stopTimer (timers : List Timer) (t : Timer) : List Timer :=
  timers.filter (fun x => decide (x.id ≠ t.id))

/-- The case `client := <-rm.register` of `Run`. -/
def register (s : State) (client : Client) : State × List Effect :=
  let clients := (mapGet s.rooms client.RoomID).getD []
  let isFirstConnection := !hasUser clients client.UserID
  let rooms := mapSet s.rooms client.RoomID (mapSet clients client.ConnID client)
  match mapGet s.pendingLeaves client.UserID with
  | some timer =>
    ({ s with rooms := rooms
              pendingLeaves := mapDelete s.pendingLeaves client.UserID
              timers := stopTimer s.timers timer },
     [Effect.spawnUserList client.RoomID])
  | none =>
    ({ s with rooms := rooms },
     (if isFirstConnection then [BroadcastToRoom client.RoomID (joinMsg client) ""] else [])
       ++ [Effect.spawnUserList client.RoomID])

/-- The first block of the case `client := <-rm.unregister` (lines 116-124): the
client is deleted from its room and its channel closed when it is stored there, and
the room is deleted when that leaves it empty. `none` is the panic of closing a closed
channel. -/
def unregisterRemove (s : State) (client : Client) :
    Option (GoMap String (GoMap String Client) × GoMap Nat Chan) :=
  match mapGet s.rooms client.RoomID with
  | some clients =>
    match mapGet clients client.ConnID with
    | some _ =>
      let clients' := mapDelete clients client.ConnID
      match closeChan s.chans client.Send with
      | none => none
      | some chans =>
        if clients'.length = 0 then some (mapDelete s.rooms client.RoomID, chans)
        else some (mapSet s.rooms client.RoomID clients', chans)
    | none => some (s.rooms, s.chans)
  | none => some (s.rooms, s.chans)

/-- The scan of lines 126-134: no client left in the room has the user id. -/
def isLastConnection (rooms : GoMap String (GoMap String Client)) (client : Client) : Bool :=
  match mapGet rooms client.RoomID with
  | some clients => !hasUser clients client.UserID
  | none => true

/-- The case `client := <-rm.unregister` of `Run`. -/
def unregister (s : State) (client : Client) : Option (State × List Effect) :=
  match unregisterRemove s client with
  | none => none
  | some (rooms, chans) =>
    if isLastConnection rooms client then
      let timer : Timer := { id := s.nextTimer, client := client }
      some ({ s with rooms := rooms
                     chans := chans
                     timers := s.timers ++ [timer]
                     nextTimer := s.nextTimer + 1
                     pendingLeaves := mapSet s.pendingLeaves client.UserID timer }, [])
    else
      some ({ s with rooms := rooms, chans := chans }, [Effect.spawnUserList client.RoomID])

/-- The callback given to `time.AfterFunc` (lines 137-154), run for the timer with the
given identity. A timer that was stopped or has fired does not run. -/
def fire (s : State) (id : Nat) : State × List Effect :=
  match s.timers.find? (fun t => decide (t.id = id)) with
  | none => (s, [])
  | some t =>
    let timers := s.timers.filter (fun x => decide (x.id ≠ id))
    match mapGet s.pendingLeaves t.client.UserID with
    | some _ =>
      ({ s with timers := timers
                pendingLeaves := mapDelete s.pendingLeaves t.client.UserID },
       [BroadcastToRoom t.client.RoomID (leftMsg t.client) "",
        Effect.spawnUserList t.client.RoomID])
    | none => ({ s with timers := timers }, [])

/-- The loop `for connID, client := range clients` of the case `msg := <-rm.broadcast`,
over the entries still to visit, carrying the map `clients` and the channel heap. -/
def broadcastLoop (msg : BroadcastMessage) :
    List (String × Client) → GoMap String Client → GoMap Nat Chan →
      Option (GoMap String Client × GoMap Nat Chan)
  | [], clients, chans => some (clients, chans)
  | (connID, client) :: rest, clients, chans =>
    if client.UserID ≠ msg.Exclude then
      match trySend chans client.Send msg.Message with
      | SendResult.sent chans' => broadcastLoop msg rest clients chans'
      | SendResult.full =>
        match closeChan chans client.Send with
        | none => none
        | some chans' => broadcastLoop msg rest (mapDelete clients connID) chans'
      | SendResult.panicked => none
    else broadcastLoop msg rest clients chans

/-- The case `msg := <-rm.broadcast` of `Run`. -/
def broadcast (s : State) (msg : BroadcastMessage) : Option State :=
  match mapGet s.rooms msg.RoomID with
  | some clients =>
    match broadcastLoop msg clients clients s.chans with
    | none => none
    | some (clients', chans) =>
      some { s with rooms := mapSet s.rooms msg.RoomID clients', chans := chans }
  | none => some s

/-- The receive `message, ok := <-client.Send` of `writePump` (websocket.go:113) on a
channel that holds an item: the oldest item leaves the buffer. -/
def recv (s : State) (r : Nat) : State :=
  match (chanAt s.chans r).buf with
  | [] => s
  | _ :: rest => { s with chans := mapSet s.chans r { chanAt s.chans r with buf := rest } }

/-- The steps of the system: the three cases of the `select` in `Run`, the firing of
a grace timer, and a send loop taking an item from its queue. -/
inductive Event where
  | register (client : Client)
  | unregister (client : Client)
  | broadcast (msg : BroadcastMessage)
  | fire (timer : Nat)
  | recv (chan : Nat)
deriving DecidableEq, Repr

/-- One step: the next state and what the step emits, `none` when it panics. -/
def step (s : State) : Event → Option (State × List Effect)
  | Event.register client => some (register s client)
  | Event.unregister client => unregister s client
  | Event.broadcast msg => (broadcast s msg).map (fun s' => (s', []))
  | Event.fire id => some (fire s id)
  | Event.recv r => some (recv s r, [])

/-- A sequence of steps: the final state, `none` when a step panics. -/
def run : State → List Event → Option State
  | s, [] => some s
  | s, e :: es =>
    match step s e with
    | none => none
    | some (s', _) => run s' es

/-! ## Observations used by the statements -/

/-- The entries of `rm.rooms[roomID]`, none when the room has no entry. -/
def clientsOf (s : State) (roomID : String) : GoMap String Client :=
  (mapGet s.rooms roomID).getD []

/-- The connections stored under a room id: the values of `rm.rooms[roomID]`. -/
def members (s : State) (roomID : String) : List Client :=
  (clientsOf s roomID).map Prod.snd

/-- The number of connections of a user stored under a room. -/
def userConns (s : State) (userID roomID : String) : Nat :=
  (members s roomID).countP (fun c => decide (c.UserID = userID))

/-- Whether a channel has no room left in its buffer. -/
def Chan.isFull (ch : Chan) : Bool := !decide (ch.buf.length < ch.cap)

/-- What one pass of the broadcast loop does to the queue of a recipient that is open:
the message is appended when there is room, the queue is closed when there is none. -/
def afterSend (m : WSMessage) (ch : Chan) : Chan :=
  if ch.buf.length < ch.cap then { ch with buf := ch.buf ++ [m] }
  else { ch with closed := true }

/-! ## Sample connections and states -/

/-- A first connection of user alice to room-1. -/
def alice1 : Client :=
  { ConnID := "conn-1", UserID := "alice", Username := "Alice", RoomID := "room-1", Send := 1 }

/-- A second connection (another tab) of user alice to room-1. -/
def alice2 : Client :=
  { ConnID := "conn-2", UserID := "alice", Username := "Alice", RoomID := "room-1", Send := 2 }

/-- A connection of user bob to room-1. -/
def bob1 : Client :=
  { ConnID := "conn-3", UserID := "bob", Username := "Bob", RoomID := "room-1", Send := 3 }

/-- A connection of user alice to room-2. -/
def alice3 : Client :=
  { ConnID := "conn-4", UserID := "alice", Username := "Alice", RoomID := "room-2", Send := 4 }

/-- A cursor envelope as a client sends it. -/
def ping : WSMessage := { type := "cursor", payload := Payload.json "\x7b\x7d" }

/-- A request to broadcast `ping` to room-1, nobody excluded. -/
def pingAll : BroadcastMessage := { RoomID := "room-1", Message := ping, Exclude := "" }

/-- The state in which `alice1` is the only connection and `n` messages wait in its
queue. -/
def queueState (n : Nat) : State :=
  { rooms := [("room-1", [("conn-1", alice1)])]
    pendingLeaves := []
    chans := [(1, { buf := List.replicate n ping, cap := 256, closed := false })]
    timers := []
    nextTimer := 0 }

/-- A room with `alice1`, whose queue is full, and `bob1`, whose queue is empty. -/
def busyRoom : State :=
  { rooms := [("room-1", [("conn-1", alice1), ("conn-3", bob1)])]
    pendingLeaves := []
    chans := [(1, { buf := List.replicate 256 ping, cap := 256, closed := false })]
    timers := []
    nextTimer := 0 }

/-- The state after `alice1` has registered with the empty registry. -/
def oneTab : State := (register State.init alice1).1

/-- The state after `alice1` and then `alice2` have registered. -/
def twoTabs : State := (register oneTab alice2).1

/-! ## Sequences of register and unregister steps -/

/-- The discipline `HandleWebSocket` and `readPump` impose on the requests they hand to
the manager, checked along a sequence of steps given the connections registered
before it: a `Register` brings a connection whose id (a new UUID) and whose channel (a
new `make`) differ from those of every connection registered earlier, an `Unregister`
is for a connection registered earlier, and no other step occurs. -/
def lifecycleFrom : List Client → List Event → Bool
  | _, [] => true
  | seen, Event.register c :: es =>
    seen.all (fun d => decide (d.ConnID ≠ c.ConnID) && decide (d.Send ≠ c.Send)) &&
      lifecycleFrom (c :: seen) es
  | seen, Event.unregister c :: es => decide (c ∈ seen) && lifecycleFrom seen es
  | _, Event.broadcast _ :: _ => false
  | _, Event.fire _ :: _ => false
  | _, Event.recv _ :: _ => false

/-- The discipline of `lifecycleFrom` for a sequence that starts with no connection
registered. -/
def lifecycle (es : List Event) : Bool := lifecycleFrom [] es

/-- What holds of the state `s` reached from the empty registry by the register and
unregister steps `hist` (with `seen` the connections registered in `hist`): the
members of each room are the connections registered for it and not unregistered, each
is stored under its own connection id, registered connections differ in connection id
and in channel, every unregistered connection was registered, and only channels of
unregistered connections are closed. -/
structure RegInv (hist : List Event) (seen : List Client) (s : State) : Prop where
  seen_iff : ∀ c, c ∈ seen ↔ Event.register c ∈ hist
  mem_iff : ∀ R c, c ∈ members s R ↔
    (Event.register c ∈ hist ∧ c.RoomID = R ∧ Event.unregister c ∉ hist)
  key_eq : ∀ R, ∀ p ∈ clientsOf s R, p.1 = p.2.ConnID
  unique : ∀ c d, Event.register c ∈ hist → Event.register d ∈ hist →
    (c.ConnID = d.ConnID ∨ c.Send = d.Send) → c = d
  unreg_reg : ∀ c, Event.unregister c ∈ hist → Event.register c ∈ hist
  closed_unreg : ∀ r, (chanAt s.chans r).closed = true →
    ∃ c, Event.unregister c ∈ hist ∧ c.Send = r

/-- The state `queueState n` after its only connection has been dropped by a
broadcast: the queue is closed and room-1 is left with no connection. -/
def droppedState (n : Nat) : State :=
  { rooms := [("room-1", [])]
    pendingLeaves := []
    chans := [(1, { buf := List.replicate n ping, cap := 256, closed := true })]
    timers := []
    nextTimer := 0 }

/-- Every pending-leave entry is stored under the user id of the connection its timer
holds, and no connection of that user is stored in the room of that connection. -/
def PendingOk (s : State) : Prop :=
  ∀ u t, mapGet s.pendingLeaves u = some t →
    t.client.UserID = u ∧ ∀ c ∈ members s t.client.RoomID, c.UserID ≠ u

/-! ## Traces and presence events -/

/-- One step as it happened: the state before, the event, the state after and what
the step emitted. -/
structure Transition where
  pre : State
  ev : Event
  post : State
  out : List Effect
deriving DecidableEq, Repr

/-- The steps performed from a state on a sequence of events, up to the first panic
(which ends the process). -/
def exec : State → List Event → List Transition
  | _, [] => []
  | s, e :: es =>
    match step s e with
    | none => []
    | some (s', out) => { pre := s, ev := e, post := s', out := out } :: exec s' es

/-- Whether an emitted effect is a broadcast request to the room `roomID` of an
envelope of the given type whose payload names the user `userID`. -/
def isPresence (type userID roomID : String) : Effect → Bool
  | Effect.submit b =>
    decide (b.RoomID = roomID) && decide (b.Message.type = type) &&
      (match b.Message.payload with
       | Payload.user u _ => decide (u = userID)
       | _ => false)
  | Effect.spawnUserList _ => false

/-- The number of `user_joined` events for user `userID` emitted to room `roomID`. -/
def joinedCount (userID roomID : String) (out : List Effect) : Nat :=
  out.countP (isPresence "user_joined" userID roomID)

/-- The number of `user_left` events for user `userID` emitted to room `roomID`. -/
def leftCount (userID roomID : String) (out : List Effect) : Nat :=
  out.countP (isPresence "user_left" userID roomID)

/-- Whether a step is the `Unregister` of a connection of user `userID` in room `roomID`
after which no connection of that user is stored in the room. -/
def isLastClose (userID roomID : String) (x : Transition) : Bool :=
  match x.ev with
  | Event.unregister c =>
    decide (c.UserID = userID) && decide (c.RoomID = roomID) &&
      decide (userConns x.post userID roomID = 0)
  | _ => false

/-- The number of armed timers whose callback holds a connection of user `userID` in
room `roomID`. -/
def armedFor (userID roomID : String) (s : State) : Nat :=
  s.timers.countP (fun t => decide (t.client.UserID = userID) && decide (t.client.RoomID = roomID))

/-- Timer identities are handed out in increasing order: the stored and the armed
timers all have an identity below `nextTimer`. -/
def TimersBelow (s : State) : Prop :=
  (∀ u t, mapGet s.pendingLeaves u = some t → t.id < s.nextTimer) ∧
  (∀ t ∈ s.timers, t.id < s.nextTimer)

/-- The timer identity `id` has been handed out and no armed timer has it. -/
def TimerGone (id : Nat) (s : State) : Prop :=
  (∀ t ∈ s.timers, t.id ≠ id) ∧ id < s.nextTimer

/-- Every room id that is a key of the membership map has at least one connection
stored under it. -/
def RoomsNonempty (s : State) : Prop :=
  ∀ R clients, mapGet s.rooms R = some clients → clients ≠ []

/-! ## Sequences of all steps under the connection lifecycle -/

/-- The discipline of `lifecycleFrom` along a sequence that may also hold broadcast,
timer and queue-reading steps: a `Register` brings a connection whose id and channel
differ from those of every connection registered earlier, and an `Unregister` is for a
connection registered earlier. -/
def sessionFrom : List Client → List Event → Bool
  | _, [] => true
  | seen, Event.register c :: es =>
    seen.all (fun d => decide (d.ConnID ≠ c.ConnID) && decide (d.Send ≠ c.Send)) &&
      sessionFrom (c :: seen) es
  | seen, Event.unregister c :: es => decide (c ∈ seen) && sessionFrom seen es
  | seen, Event.broadcast _ :: es => sessionFrom seen es
  | seen, Event.fire _ :: es => sessionFrom seen es
  | seen, Event.recv _ :: es => sessionFrom seen es

/-- The discipline of `sessionFrom` for a sequence that starts with no connection
registered. -/
def session (es : List Event) : Bool := sessionFrom [] es

/-- What holds of a state reached under `sessionFrom`, with `seen` the connections
registered so far: every stored connection is a registered one, stored under its own
connection id in its own room, registered connections differ in connection id and in channel, the
connections of a room have distinct channels, the queue of every stored connection is
open, and only channels of registered connections are closed. -/
structure OpenInv (seen : List Client) (s : State) : Prop where
  key_eq : ∀ R, ∀ p ∈ clientsOf s R, p.1 = p.2.ConnID
  stored_seen : ∀ R, ∀ c ∈ members s R, c ∈ seen
  room_eq : ∀ R, ∀ c ∈ members s R, c.RoomID = R
  unique : ∀ c ∈ seen, ∀ d ∈ seen, (c.ConnID = d.ConnID ∨ c.Send = d.Send) → c = d
  sends_nodup : ∀ R, ((members s R).map Client.Send).Nodup
  stored_open : ∀ R, ∀ c ∈ members s R, (chanAt s.chans c.Send).closed = false
  closed_seen : ∀ r, (chanAt s.chans r).closed = true → ∃ c ∈ seen, c.Send = r

/-! ## The message dispatcher (websocket.go) -/

/-- The struct `models.CodeChangePayload`. -/
structure CodeChangePayload where
  RoomID : String
  UserID : String
  Username : String
  Code : String
  Language : String
  Changes : String
deriving DecidableEq, Repr

/-- The struct `models.ChatPayload`. -/
structure ChatPayload where
  RoomID : String
  UserID : String
  Username : String
  Text : String
  Timestamp : Nat
deriving DecidableEq, Repr

/-- The decoding of a client payload, `json.Marshal(msg.Payload)` followed by
`json.Unmarshal(payloadBytes, &payload)`, into each of the two payload structs. The
functions belong to `encoding/json` and are taken as given. -/
structure Codec where
  codeChange : Payload → CodeChangePayload
  chat : Payload → ChatPayload

/-- What the surroundings supply while one envelope is handled: the string of
`uuid.New()`, the instant of `time.Now()`, and the error returned by the DynamoDB call
(`none` for `nil`). -/
structure Ambient where
  newID : String
  now : Nat
  dbErr : Option String
deriving DecidableEq, Repr

/-- What a handler does, in order: the `UpdateItem` on the code table, the `PutItem` on
the messages table, a `log.Printf`, or a call to the room manager. -/
inductive Action where
  | updateItem (roomID code : String) (now : Nat) (language : String)
  | putItem (item : Message)
  | log (line : String)
  | manager (e : Effect)
deriving DecidableEq, Repr

/-- The method `WebSocketHandler.handleCodeChange`. -/
def handleCodeChange (codec : Codec) (amb : Ambient) (client : Client) (msg : WSMessage) :
    List Action :=
  let payload := codec.codeChange msg.payload
  [Action.updateItem client.RoomID payload.Code amb.now payload.Language] ++
    (match amb.dbErr with
     | some err => [Action.log ("Error updating code: " ++ err)]
     | none => []) ++
    [Action.manager (BroadcastToRoom client.RoomID msg client.UserID)]

/-- The method `WebSocketHandler.handleChat`. The result of `PutItem` is discarded. -/
def handleChat (codec : Codec) (amb : Ambient) (client : Client) (msg : WSMessage) :
    List Action :=
  let payload := codec.chat msg.payload
  let message : Message :=
    { RoomID := client.RoomID
      MessageID := amb.newID
      UserID := client.UserID
      Username := client.Username
      Text := payload.Text
      Timestamp := amb.now }
  [Action.putItem message,
   Action.manager
     (BroadcastToRoom client.RoomID { type := "chat", payload := Payload.message message } "")]

/-- The method `WebSocketHandler.handleCursor`. -/
def handleCursor (client : Client) (msg : WSMessage) : List Action :=
  [Action.manager (BroadcastToRoom client.RoomID msg client.UserID)]

/-- The method `WebSocketHandler.handleMessage`. -/
def handleMessage (codec : Codec) (amb : Ambient) (client : Client) (msg : WSMessage) :
    List Action :=
  if msg.type = "code_change" then handleCodeChange codec amb client msg
  else if msg.type = "chat" then handleChat codec amb client msg
  else if msg.type = "cursor" then handleCursor client msg
  else [Action.log ("Unknown message type: " ++ msg.type)]

/-- The broadcast requests among the actions of a handler, in order. -/
def requests (actions : List Action) : List BroadcastMessage :=
  actions.filterMap (fun a =>
    match a with
    | Action.manager (Effect.submit b) => some b
    | _ => none)

/-- A decoding for the sample envelopes: whatever the client sent, the decoded payload
names room-9 and user mallory. -/
def sampleCodec : Codec :=
  { codeChange := fun _ =>
      { RoomID := "room-9", UserID := "mallory", Username := "Mallory", Code := "x",
        Language := "js", Changes := "" }
    chat := fun _ =>
      { RoomID := "room-9", UserID := "mallory", Username := "Mallory", Text := "hi",
        Timestamp := 7 } }

/-- Sample surroundings: a generated id, an instant, and a DynamoDB call that succeeds. -/
def sampleAmbient : Ambient := { newID := "msg-1", now := 1000, dbErr := none }

/-- A `code_change` envelope as a client sends it. -/
def codeMsg : WSMessage := { type := "code_change", payload := Payload.json "\x7b\x7d" }

/-- A `chat` envelope as a client sends it. -/
def chatMsg : WSMessage := { type := "chat", payload := Payload.json "\x7b\x7d" }

/-! ## Locks held at the accesses to the manager's maps -/

/-- The goroutines that touch the maps of the manager: the one running `Run`, the one
running a timer callback, one started by `go rm.BroadcastUserList(..)`, and a caller of
`GetRoomClients`. -/
inductive Goroutine where
  | run
  | timer
  | userList
  | caller
deriving DecidableEq, Repr

/-- How `rm.mu` is held at an access: not at all, shared (`RLock`) or exclusive
(`Lock`). -/
inductive Held where
  | nothing
  | shared
  | exclusive
deriving DecidableEq, Repr

/-- The maps: `rm.rooms`, the map of one room stored in it, and `rm.pendingLeaves`. -/
inductive Target where
  | rooms
  | clients
  | pendingLeaves
deriving DecidableEq, Repr

/-- One access to a map: the source line of room_manager.go, the goroutine, the map,
whether the access writes, and how the lock is held there. -/
structure Access where
  line : Nat
  who : Goroutine
  target : Target
  write : Bool
  held : Held
deriving DecidableEq, Repr

/-- The accesses of room_manager.go to the maps, by source line, with the lock state
given by the enclosing `Lock`/`Unlock` (78-98, 115-159, 138-153) and `RLock`/`RUnlock`
(47-49, 162-175, 197 with the deferred unlock) pairs. -/
def accesses : List Access :=
  [ -- BroadcastUserList
    { line := 48, who := Goroutine.userList, target := Target.rooms, write := false,
      held := Held.shared },
    { line := 54, who := Goroutine.userList, target := Target.clients, write := false,
      held := Held.nothing },
    -- Run, case register
    { line := 79, who := Goroutine.run, target := Target.rooms, write := false,
      held := Held.exclusive },
    { line := 80, who := Goroutine.run, target := Target.rooms, write := true,
      held := Held.exclusive },
    { line := 83, who := Goroutine.run, target := Target.clients, write := false,
      held := Held.exclusive },
    { line := 90, who := Goroutine.run, target := Target.clients, write := true,
      held := Held.exclusive },
    { line := 92, who := Goroutine.run, target := Target.pendingLeaves, write := false,
      held := Held.exclusive },
    { line := 94, who := Goroutine.run, target := Target.pendingLeaves, write := true,
      held := Held.exclusive },
    -- Run, case unregister
    { line := 116, who := Goroutine.run, target := Target.rooms, write := false,
      held := Held.exclusive },
    { line := 117, who := Goroutine.run, target := Target.clients, write := false,
      held := Held.exclusive },
    { line := 118, who := Goroutine.run, target := Target.clients, write := true,
      held := Held.exclusive },
    { line := 120, who := Goroutine.run, target := Target.clients, write := false,
      held := Held.exclusive },
    { line := 121, who := Goroutine.run, target := Target.rooms, write := true,
      held := Held.exclusive },
    { line := 127, who := Goroutine.run, target := Target.rooms, write := false,
      held := Held.exclusive },
    { line := 128, who := Goroutine.run, target := Target.clients, write := false,
      held := Held.exclusive },
    { line := 155, who := Goroutine.run, target := Target.pendingLeaves, write := true,
      held := Held.exclusive },
    -- the timer callback
    { line := 139, who := Goroutine.timer, target := Target.pendingLeaves, write := false,
      held := Held.exclusive },
    { line := 140, who := Goroutine.timer, target := Target.pendingLeaves, write := true,
      held := Held.exclusive },
    -- Run, case broadcast
    { line := 163, who := Goroutine.run, target := Target.rooms, write := false,
      held := Held.shared },
    { line := 164, who := Goroutine.run, target := Target.clients, write := false,
      held := Held.shared },
    { line := 170, who := Goroutine.run, target := Target.clients, write := true,
      held := Held.shared },
    -- GetRoomClients
    { line := 201, who := Goroutine.caller, target := Target.rooms, write := false,
      held := Held.shared },
    { line := 202, who := Goroutine.caller, target := Target.clients, write := false,
      held := Held.shared } ]

/-- Whether two holds of `rm.mu` cannot be in force at the same time: one is exclusive
and the other is a hold at all. -/
def lockExcludes (a b : Held) : Bool :=
  (decide (a = Held.exclusive) && decide (b ≠ Held.nothing)) ||
    (decide (b = Held.exclusive) && decide (a ≠ Held.nothing))

/-- Whether two accesses can come from goroutines running at the same time: there is
one goroutine running `Run`, and any number of the others. -/
def mayOverlap (a b : Goroutine) : Bool :=
  !(decide (a = Goroutine.run) && decide (b = Goroutine.run))

/-- A data race: two accesses to the same map, one of them a write, from goroutines
that can run at the same time, under holds of the lock that do not exclude each
other. -/
def races (a b : Access) : Bool :=
  decide (a.target = b.target) && (a.write || b.write) && mayOverlap a.who b.who &&
    !lockExcludes a.held b.held

/-! ## Theorems -/

/-! ## Go maps: lookups after updates -/

theorem mapGet_mapSet {α β : Type} [DecidableEq α] (m : GoMap α β) (a a' : α) (b : β) :
    mapGet (mapSet m a b) a' = if a = a' then some b else mapGet m a' := by
  induction m with
  | nil => simp [mapSet, mapGet]
  | cons p m ih =>
    obtain ⟨k, v⟩ := p
    by_cases hk : k = a
    · subst hk
      by_cases hk' : k = a'
      · simp [mapSet, mapGet, hk']
      · simp [mapSet, mapGet, hk']
    · simp only [mapSet, if_neg hk, mapGet, ih]
      by_cases hk' : k = a'
      · subst hk'
        simp [Ne.symm hk]
      · simp [hk']

theorem mapGet_mapDelete {α β : Type} [DecidableEq α] (m : GoMap α β) (a a' : α) :
    mapGet (mapDelete m a) a' = if a = a' then none else mapGet m a' := by
  induction m with
  | nil => simp [mapDelete, mapGet]
  | cons p m ih =>
    obtain ⟨k, v⟩ := p
    unfold mapDelete at ih ⊢
    by_cases hk : k = a
    · subst hk
      simp only [List.filter, ne_eq, not_true_eq_false, decide_False, ih, mapGet]
      by_cases hk' : k = a'
      · simp [hk']
      · simp [hk']
    · simp only [List.filter, ne_eq, hk, not_false_eq_true, decide_True, mapGet, ih]
      by_cases hk' : k = a'
      · subst hk'
        simp [Ne.symm hk]
      · simp [hk']

theorem mem_mapDelete {α β : Type} [DecidableEq α] (m : GoMap α β) (a : α) (p : α × β) :
    p ∈ mapDelete m a ↔ p ∈ m ∧ p.1 ≠ a := by
  simp [mapDelete]

theorem hasUser_iff (clients : GoMap String Client) (u : String) :
    hasUser clients u = true ↔ ∃ p ∈ clients, p.2.UserID = u := by
  simp [hasUser]

theorem hasUser_false_iff (clients : GoMap String Client) (u : String) :
    hasUser clients u = false ↔ ∀ p ∈ clients, p.2.UserID ≠ u := by
  rw [← Bool.not_eq_true, hasUser_iff]
  simp

theorem mem_members (s : State) (roomID : String) (c : Client) :
    c ∈ members s roomID ↔
      ∃ clients, mapGet s.rooms roomID = some clients ∧ ∃ p ∈ clients, p.2 = c := by
  unfold members clientsOf
  cases h : mapGet s.rooms roomID with
  | none => simp
  | some clients => simp

/-! ## The user list -/

theorem userListLoop_spec (cs : List (String × Client)) :
    ∀ (ul : List UserPresence) (seen : List String),
      (∀ u, u ∈ seen ↔ u ∈ ul.map UserPresence.UserID) →
      (ul.map UserPresence.UserID).Nodup →
      ((userListLoop cs ul seen).map UserPresence.UserID).Nodup ∧
      ∀ u, u ∈ (userListLoop cs ul seen).map UserPresence.UserID ↔
        (u ∈ ul.map UserPresence.UserID ∨ ∃ p ∈ cs, p.2.UserID = u) := by
  induction cs with
  | nil =>
    intro ul seen _ hnd
    simp [userListLoop, hnd]
  | cons p cs ih =>
    obtain ⟨k, c⟩ := p
    intro ul seen hseen hnd
    by_cases hc : c.UserID ∈ seen
    · have h := ih ul seen hseen hnd
      simp only [userListLoop, if_pos hc]
      refine ⟨h.1, fun u => ?_⟩
      rw [h.2 u]
      constructor
      · rintro (h1 | ⟨p, hp, hpu⟩)
        · exact Or.inl h1
        · exact Or.inr ⟨p, List.mem_cons_of_mem _ hp, hpu⟩
      · rintro (h1 | ⟨p, hp, hpu⟩)
        · exact Or.inl h1
        · rcases List.mem_cons.1 hp with rfl | hp
          · left
            rw [← hpu, ← hseen]
            exact hc
          · exact Or.inr ⟨p, hp, hpu⟩
    · have hc' : c.UserID ∉ ul.map UserPresence.UserID := fun h => hc ((hseen _).2 h)
      have hseen' : ∀ u, u ∈ c.UserID :: seen ↔
          u ∈ (ul ++ [presenceOf c]).map UserPresence.UserID := by
        intro u
        simp only [List.mem_cons, hseen u, List.map_append, List.map_cons, List.map_nil,
          List.mem_append, List.mem_singleton, presenceOf]
        tauto
      have hnd' : ((ul ++ [presenceOf c]).map UserPresence.UserID).Nodup := by
        simp only [List.map_append, List.map_cons, List.map_nil, presenceOf]
        rw [List.nodup_append]
        refine ⟨hnd, List.nodup_singleton _, ?_⟩
        intro a ha hb
        rw [List.mem_singleton] at hb
        exact hc' (hb ▸ ha)
      have h := ih _ _ hseen' hnd'
      simp only [userListLoop, if_neg hc]
      refine ⟨h.1, fun u => ?_⟩
      rw [h.2 u]
      simp only [List.map_append, List.map_cons, List.map_nil, List.mem_append,
        List.mem_singleton, List.mem_cons, presenceOf, List.not_mem_nil, or_false]
      constructor
      · rintro ((h1 | h1) | ⟨p, hp, hpu⟩)
        · exact Or.inl h1
        · exact Or.inr ⟨(k, c), Or.inl rfl, h1.symm⟩
        · exact Or.inr ⟨p, Or.inr hp, hpu⟩
      · rintro (h1 | ⟨p, hp, hpu⟩)
        · exact Or.inl (Or.inl h1)
        · rcases hp with rfl | hp
          · exact Or.inl (Or.inr hpu.symm)
          · exact Or.inr ⟨p, hp, hpu⟩

/-- C4: the `user_list` request computed by `BroadcastUserList` for a room goes to
that room with nobody excluded, and its payload holds exactly one entry for each user
id that has at least one connection stored under the room and no entry for any other
user id, however many connections a user holds. -/
theorem broadcastUserList_each_user_once (s : State) (roomID : String) :
    ∃ l : List UserPresence,
      BroadcastUserList s roomID =
        Effect.submit { RoomID := roomID,
                        Message := { type := "user_list", payload := Payload.users l },
                        Exclude := "" } ∧
      ∀ u : String,
        ((∃ c ∈ members s roomID, c.UserID = u) →
            (l.map UserPresence.UserID).count u = 1) ∧
        ((¬ ∃ c ∈ members s roomID, c.UserID = u) →
            (l.map UserPresence.UserID).count u = 0) := by
  refine ⟨userList s roomID, rfl, fun u => ?_⟩
  have h := userListLoop_spec ((mapGet s.rooms roomID).getD []) [] [] (by simp) (by simp)
  have hiff : u ∈ (userList s roomID).map UserPresence.UserID ↔
      ∃ c ∈ members s roomID, c.UserID = u := by
    unfold userList members clientsOf
    rw [h.2 u]
    simp only [List.map_nil, List.not_mem_nil, false_or, List.mem_map]
    constructor
    · rintro ⟨p, hp, hpu⟩
      exact ⟨p.2, ⟨p, hp, rfl⟩, hpu⟩
    · rintro ⟨c, ⟨p, hp, rfl⟩, hpu⟩
      exact ⟨p, hp, hpu⟩
  constructor
  · intro hu
    exact List.count_eq_one_of_mem h.1 (hiff.2 hu)
  · intro hu
    exact List.count_eq_zero_of_not_mem (fun hm => hu (hiff.1 hm))

/-! ## Register, unregister and the grace timer, one step at a time -/

theorem no_member_iff (s : State) (roomID u : String) :
    hasUser (clientsOf s roomID) u = false ↔ ∀ m ∈ members s roomID, m.UserID ≠ u := by
  rw [hasUser_false_iff]
  unfold members
  constructor
  · intro h m hm
    obtain ⟨p, hp, rfl⟩ := List.mem_map.1 hm
    exact h p hp
  · intro h p hp
    exact h p.2 (List.mem_map.2 ⟨p, hp, rfl⟩)

theorem mem_stopTimer (timers : List Timer) (t x : Timer) :
    x ∈ stopTimer timers t ↔ x ∈ timers ∧ x.id ≠ t.id := by
  simp [stopTimer]

/-- C6: processing `Register(c)` emits a `user_joined` request (to c's room, nobody
excluded, carrying c's user id and username) exactly when, before c is inserted, no
member of c's room has c's user id and no pending-leave timer is stored for c's user
id; the only other thing emitted is the request to recompute the user list. When a
pending-leave timer is stored for that user it is stopped, its entry leaves the
pending map, and no `user_joined` is emitted. -/
theorem register_user_joined (s : State) (c : Client) :
    (((∀ m ∈ members s c.RoomID, m.UserID ≠ c.UserID) ∧
        mapGet s.pendingLeaves c.UserID = none) →
      (register s c).2 =
        [Effect.submit { RoomID := c.RoomID,
                         Message := { type := "user_joined",
                                      payload := Payload.user c.UserID c.Username },
                         Exclude := "" },
         Effect.spawnUserList c.RoomID]) ∧
    (¬ ((∀ m ∈ members s c.RoomID, m.UserID ≠ c.UserID) ∧
        mapGet s.pendingLeaves c.UserID = none) →
      (register s c).2 = [Effect.spawnUserList c.RoomID]) ∧
    (∀ t, mapGet s.pendingLeaves c.UserID = some t →
      (∀ x ∈ (register s c).1.timers, x.id ≠ t.id) ∧
      mapGet (register s c).1.pendingLeaves c.UserID = none ∧
      (register s c).2 = [Effect.spawnUserList c.RoomID]) := by
  have hmem := no_member_iff s c.RoomID c.UserID
  unfold clientsOf at hmem
  refine ⟨?_, ?_, ?_⟩
  · rintro ⟨h1, h2⟩
    have h1' := hmem.2 h1
    simp [register, h2, h1', BroadcastToRoom, joinMsg]
  · intro h
    cases hp : mapGet s.pendingLeaves c.UserID with
    | some t => simp [register, hp]
    | none =>
      have h1 : ¬ ∀ m ∈ members s c.RoomID, m.UserID ≠ c.UserID := fun h1 => h ⟨h1, hp⟩
      have h1' : hasUser ((mapGet s.rooms c.RoomID).getD []) c.UserID = true := by
        rw [← Bool.not_eq_false]
        exact fun hf => h1 (hmem.1 hf)
      simp [register, hp, h1']
  · intro t ht
    refine ⟨?_, ?_, ?_⟩
    · intro x hx
      simp only [register, ht] at hx
      exact ((mem_stopTimer _ _ _).1 hx).2
    · simp [register, ht, mapGet_mapDelete]
    · simp [register, ht]

theorem unregisterRemove_total (s : State) (c : Client)
    (hopen : (∃ clients, mapGet s.rooms c.RoomID = some clients ∧
                mapGet clients c.ConnID ≠ none) →
              (chanAt s.chans c.Send).closed = false) :
    ∃ r, unregisterRemove s c = some r := by
  rw [← Option.isSome_iff_exists]
  cases h1 : mapGet s.rooms c.RoomID with
  | none => simp [unregisterRemove, h1]
  | some clients =>
    cases h2 : mapGet clients c.ConnID with
    | none => simp [unregisterRemove, h1, h2]
    | some x =>
      have ho := hopen ⟨clients, h1, by simp [h2]⟩
      by_cases hlen : (mapDelete clients c.ConnID).length = 0
      · simp [unregisterRemove, h1, h2, closeChan, ho, hlen]
      · simp [unregisterRemove, h1, h2, closeChan, ho, hlen]

theorem unregisterRemove_gone (s : State) (c : Client)
    (rooms : GoMap String (GoMap String Client)) (chans : GoMap Nat Chan)
    (h : unregisterRemove s c = some (rooms, chans)) :
    ∀ clients, mapGet rooms c.RoomID = some clients → mapGet clients c.ConnID = none := by
  unfold unregisterRemove at h
  cases h1 : mapGet s.rooms c.RoomID with
  | none =>
    simp only [h1, Option.some.injEq, Prod.mk.injEq] at h
    intro clients hc
    rw [← h.1, h1] at hc
    cases hc
  | some cl =>
    simp only [h1] at h
    cases h2 : mapGet cl c.ConnID with
    | none =>
      simp only [h2, Option.some.injEq, Prod.mk.injEq] at h
      intro clients hc
      rw [← h.1, h1] at hc
      cases hc
      exact h2
    | some x =>
      simp only [h2] at h
      cases h3 : closeChan s.chans c.Send with
      | none => simp [h3] at h
      | some ch =>
        simp only [h3] at h
        intro clients hc
        split at h
        · simp only [Option.some.injEq, Prod.mk.injEq] at h
          rw [← h.1, mapGet_mapDelete] at hc
          simp at hc
        · simp only [Option.some.injEq, Prod.mk.injEq] at h
          rw [← h.1, mapGet_mapSet] at hc
          simp only [if_true, Option.some.injEq] at hc
          rw [← hc, mapGet_mapDelete]
          simp

theorem isLastConnection_iff (rooms : GoMap String (GoMap String Client)) (c : Client) :
    isLastConnection rooms c = true ↔
      ∀ p ∈ (mapGet rooms c.RoomID).getD [], p.2.UserID ≠ c.UserID := by
  unfold isLastConnection
  cases h : mapGet rooms c.RoomID with
  | none => simp
  | some clients =>
    simp only [Bool.not_eq_true', hasUser_false_iff, Option.getD_some]

theorem unregister_cases (s : State) (c : Client) (s' : State) (effs : List Effect)
    (h : unregister s c = some (s', effs)) :
    ∃ rooms chans, unregisterRemove s c = some (rooms, chans) ∧
      ((isLastConnection rooms c = true ∧
          s' = { s with rooms := rooms
                        chans := chans
                        timers := s.timers ++ [{ id := s.nextTimer, client := c }]
                        nextTimer := s.nextTimer + 1
                        pendingLeaves :=
                          mapSet s.pendingLeaves c.UserID { id := s.nextTimer, client := c } } ∧
          effs = []) ∨
       (isLastConnection rooms c = false ∧
          s' = { s with rooms := rooms, chans := chans } ∧
          effs = [Effect.spawnUserList c.RoomID])) := by
  unfold unregister at h
  cases hr : unregisterRemove s c with
  | none => simp [hr] at h
  | some r =>
    obtain ⟨rooms, chans⟩ := r
    simp only [hr] at h
    refine ⟨rooms, chans, rfl, ?_⟩
    cases hl : isLastConnection rooms c with
    | true =>
      simp only [hl, if_true, Option.some.injEq, Prod.mk.injEq] at h
      exact Or.inl ⟨rfl, h.1.symm, h.2.symm⟩
    | false =>
      simp only [hl, Bool.false_eq_true, if_false, Option.some.injEq, Prod.mk.injEq] at h
      exact Or.inr ⟨rfl, h.1.symm, h.2.symm⟩

theorem unregister_total (s : State) (c : Client)
    (hopen : (∃ clients, mapGet s.rooms c.RoomID = some clients ∧
                mapGet clients c.ConnID ≠ none) →
              (chanAt s.chans c.Send).closed = false) :
    ∃ s' effs, unregister s c = some (s', effs) := by
  obtain ⟨⟨rooms, chans⟩, hr⟩ := unregisterRemove_total s c hopen
  unfold unregister
  rw [hr]
  by_cases hl : isLastConnection rooms c = true
  · exact ⟨_, _, by simp only [hl, if_true]; rfl⟩
  · exact ⟨_, _, by simp only [hl, if_false]; rfl⟩

/-- C8: processing `Unregister(c)` (which does not panic as long as c's queue is open
whenever c is still stored in its room) leaves no entry for c's connection id in c's
room, and stores a pending-leave timer under c's user id if and only if no remaining
member of c's room has c's user id: in that case the stored timer is a new one whose
callback holds c, and nothing is emitted; when another connection of that user remains
in the room, the pending map and the timers are left as they were, no `user_left` is
emitted, and a recomputation of the room's user list is requested instead. -/
theorem unregister_pending_leave (s : State) (c : Client)
    (hopen : (∃ clients, mapGet s.rooms c.RoomID = some clients ∧
                mapGet clients c.ConnID ≠ none) →
              (chanAt s.chans c.Send).closed = false) :
    ∃ s' effs, unregister s c = some (s', effs) ∧
      (∀ clients, mapGet s'.rooms c.RoomID = some clients →
          mapGet clients c.ConnID = none) ∧
      ((∀ m ∈ members s' c.RoomID, m.UserID ≠ c.UserID) →
          mapGet s'.pendingLeaves c.UserID = some { id := s.nextTimer, client := c } ∧
          s'.timers = s.timers ++ [{ id := s.nextTimer, client := c }] ∧
          effs = []) ∧
      ((∃ m ∈ members s' c.RoomID, m.UserID = c.UserID) →
          s'.pendingLeaves = s.pendingLeaves ∧ s'.timers = s.timers ∧
          effs = [Effect.spawnUserList c.RoomID]) := by
  obtain ⟨⟨rooms, chans⟩, hr⟩ := unregisterRemove_total s c hopen
  have hgone := unregisterRemove_gone s c rooms chans hr
  have hlast := isLastConnection_iff rooms c
  by_cases hl : isLastConnection rooms c = true
  · refine ⟨_, _, by simp only [unregister, hr, hl, if_true]; rfl, hgone, ?_, ?_⟩
    · intro _
      exact ⟨by simp [mapGet_mapSet], rfl, rfl⟩
    · rintro ⟨m, hm, hmu⟩
      exfalso
      obtain ⟨p, hp, rfl⟩ := List.mem_map.1 hm
      exact hlast.1 hl p hp hmu
  · refine ⟨_, _, by simp only [unregister, hr, hl, if_false]; rfl, hgone, ?_, ?_⟩
    · intro hno
      exfalso
      apply hl
      rw [hlast]
      intro p hp
      exact hno p.2 (List.mem_map.2 ⟨p, hp, rfl⟩)
    · intro _
      exact ⟨rfl, rfl, rfl⟩

/-- C9: the timer started by an `Unregister(c)` that found no other connection of c's
user in c's room holds c and is armed afterwards. When it fires in a state where c's
user id is still a key of the pending-leave map, that entry is removed (the other
entries and the rooms stay), exactly one `user_left` request carrying c's user id and
username is emitted to c's room with nobody excluded, followed by the request to
recompute the room's user list; when the key is no longer present, firing emits nothing
and leaves rooms, pending map and queues as they were. In both cases the timer is no
longer armed. -/
theorem grace_timer_fires (s0 : State) (c : Client) (s1 : State) (effs : List Effect)
    (hun : unregister s0 c = some (s1, effs))
    (hlast : ∀ m ∈ members s1 c.RoomID, m.UserID ≠ c.UserID) :
    ({ id := s0.nextTimer, client := c } : Timer) ∈ s1.timers ∧
    ∀ s : State,
      s.timers.find? (fun x => decide (x.id = s0.nextTimer)) =
          some { id := s0.nextTimer, client := c } →
      (∀ x ∈ (fire s s0.nextTimer).1.timers, x.id ≠ s0.nextTimer) ∧
      (fire s s0.nextTimer).1.rooms = s.rooms ∧
      (fire s s0.nextTimer).1.chans = s.chans ∧
      (mapGet s.pendingLeaves c.UserID ≠ none →
        mapGet (fire s s0.nextTimer).1.pendingLeaves c.UserID = none ∧
        (∀ u, u ≠ c.UserID →
          mapGet (fire s s0.nextTimer).1.pendingLeaves u = mapGet s.pendingLeaves u) ∧
        (fire s s0.nextTimer).2 =
          [Effect.submit { RoomID := c.RoomID,
                           Message := { type := "user_left",
                                        payload := Payload.user c.UserID c.Username },
                           Exclude := "" },
           Effect.spawnUserList c.RoomID]) ∧
      (mapGet s.pendingLeaves c.UserID = none →
        (fire s s0.nextTimer).1.pendingLeaves = s.pendingLeaves ∧
        (fire s s0.nextTimer).2 = []) := by
  obtain ⟨rooms, chans, hr, hcase⟩ := unregister_cases s0 c s1 effs hun
  constructor
  · rcases hcase with ⟨_, hs1, _⟩ | ⟨hl, hs1, _⟩
    · rw [hs1]
      simp
    · exfalso
      have hl2 : ¬ isLastConnection rooms c = true := by simp [hl]
      apply (isLastConnection_iff rooms c).not.1 hl2
      intro p hp
      apply hlast p.2
      rw [hs1]
      exact List.mem_map.2 ⟨p, hp, rfl⟩
  · intro s hfind
    have htim : ∀ x ∈ (fire s s0.nextTimer).1.timers, x.id ≠ s0.nextTimer := by
      intro x hx
      cases hp : mapGet s.pendingLeaves c.UserID with
      | none =>
        simp only [fire, hfind, hp] at hx
        simpa using (List.mem_filter.1 hx).2
      | some t =>
        simp only [fire, hfind, hp] at hx
        simpa using (List.mem_filter.1 hx).2
    have hrooms : (fire s s0.nextTimer).1.rooms = s.rooms := by
      cases hp : mapGet s.pendingLeaves c.UserID <;> simp [fire, hfind, hp]
    have hchans : (fire s s0.nextTimer).1.chans = s.chans := by
      cases hp : mapGet s.pendingLeaves c.UserID <;> simp [fire, hfind, hp]
    refine ⟨htim, hrooms, hchans, ?_, ?_⟩
    · intro hp
      obtain ⟨t, ht⟩ := Option.ne_none_iff_exists'.1 hp
      refine ⟨?_, ?_, ?_⟩
      · simp [fire, hfind, ht, mapGet_mapDelete]
      · intro u hu
        simp [fire, hfind, ht, mapGet_mapDelete, Ne.symm hu]
      · simp [fire, hfind, ht, BroadcastToRoom, leftMsg]
    · intro hp
      simp [fire, hfind, hp]

/-! ## The broadcast loop -/

theorem chanAt_mapSet (h : GoMap Nat Chan) (r r' : Nat) (ch : Chan) :
    chanAt (mapSet h r ch) r' = if r = r' then ch else chanAt h r' := by
  unfold chanAt
  rw [mapGet_mapSet]
  by_cases hr : r = r' <;> simp [hr]

theorem trySend_open (h : GoMap Nat Chan) (r : Nat) (m : WSMessage)
    (ho : (chanAt h r).closed = false) :
    (((chanAt h r).buf.length < (chanAt h r).cap) →
      trySend h r m =
        SendResult.sent (mapSet h r { chanAt h r with buf := (chanAt h r).buf ++ [m] })) ∧
    ((¬ (chanAt h r).buf.length < (chanAt h r).cap) →
      trySend h r m = SendResult.full ∧
      closeChan h r = some (mapSet h r { chanAt h r with closed := true })) := by
  constructor
  · intro hlt
    simp [trySend, ho, hlt]
  · intro hlt
    simp [trySend, closeChan, ho, hlt]

theorem broadcastLoop_spec (msg : BroadcastMessage) (rest : List (String × Client)) :
    ∀ (clients : GoMap String Client) (chans : GoMap Nat Chan),
      (rest.map (fun p => p.2.Send)).Nodup →
      (∀ p ∈ rest, (chanAt chans p.2.Send).closed = false) →
      ∃ clients' chans', broadcastLoop msg rest clients chans = some (clients', chans') ∧
        (∀ p ∈ rest, p.2.UserID ≠ msg.Exclude →
          chanAt chans' p.2.Send = afterSend msg.Message (chanAt chans p.2.Send)) ∧
        (∀ r, (∀ p ∈ rest, p.2.UserID ≠ msg.Exclude → p.2.Send ≠ r) →
          chanAt chans' r = chanAt chans r) ∧
        (∀ q, q ∈ clients' → q ∈ clients) ∧
        (∀ p ∈ rest, p.2.UserID ≠ msg.Exclude → (chanAt chans p.2.Send).isFull = true →
          ∀ q ∈ clients', q.1 ≠ p.1) := by
  induction rest with
  | nil =>
    intro clients chans _ _
    exact ⟨clients, chans, rfl, by simp, by simp, by simp, by simp⟩
  | cons hd rest ih =>
    obtain ⟨k, c⟩ := hd
    intro clients chans hnd hopen
    have hnd' : (rest.map (fun p => p.2.Send)).Nodup := (List.nodup_cons.1 hnd).2
    have hfresh : ∀ p ∈ rest, p.2.Send ≠ c.Send := by
      intro p hp heq
      apply (List.nodup_cons.1 hnd).1
      exact List.mem_map.2 ⟨p, hp, heq⟩
    have hoc : (chanAt chans c.Send).closed = false := hopen (k, c) (List.mem_cons_self _ _)
    by_cases hex : c.UserID ≠ msg.Exclude
    · -- the head is a recipient
      obtain ⟨chans1, hch1, hstep⟩ :
          ∃ chans1, (∀ r, chanAt chans1 r =
              if c.Send = r then afterSend msg.Message (chanAt chans c.Send) else chanAt chans r) ∧
            ∃ clients1, (∀ q, q ∈ clients1 → q ∈ clients) ∧
              ((chanAt chans c.Send).isFull = true → ∀ q ∈ clients1, q.1 ≠ k) ∧
              broadcastLoop msg ((k, c) :: rest) clients chans =
                broadcastLoop msg rest clients1 chans1 := by
        by_cases hlt : (chanAt chans c.Send).buf.length < (chanAt chans c.Send).cap
        · refine ⟨mapSet chans c.Send
              { chanAt chans c.Send with buf := (chanAt chans c.Send).buf ++ [msg.Message] },
            fun r => ?_, clients, fun q hq => hq, ?_, ?_⟩
          · rw [chanAt_mapSet]
            simp only [afterSend, hlt, if_true]
          · intro hf
            simp [Chan.isFull, hlt] at hf
          · simp only [broadcastLoop, hex, ne_eq, not_false_eq_true, if_true,
              (trySend_open chans c.Send msg.Message hoc).1 hlt]
        · refine ⟨mapSet chans c.Send { chanAt chans c.Send with closed := true },
            fun r => ?_, mapDelete clients k, fun q hq => ?_, ?_, ?_⟩
          · rw [chanAt_mapSet]
            simp only [afterSend, hlt, if_false]
          · exact ((mem_mapDelete _ _ _).1 hq).1
          · intro _ q hq
            exact ((mem_mapDelete _ _ _).1 hq).2
          · simp only [broadcastLoop, hex, ne_eq, not_false_eq_true, if_true,
              ((trySend_open chans c.Send msg.Message hoc).2 hlt).1,
              ((trySend_open chans c.Send msg.Message hoc).2 hlt).2]
      obtain ⟨clients1, hsub1, hdrop1, heq⟩ := hstep
      have hsame : ∀ p ∈ rest, chanAt chans1 p.2.Send = chanAt chans p.2.Send := by
        intro p hp
        rw [hch1, if_neg (Ne.symm (hfresh p hp))]
      have hopen1 : ∀ p ∈ rest, (chanAt chans1 p.2.Send).closed = false := by
        intro p hp
        rw [hsame p hp]
        exact hopen p (List.mem_cons_of_mem _ hp)
      obtain ⟨clients', chans', hrun, h1, h2, h3, h4⟩ := ih clients1 chans1 hnd' hopen1
      refine ⟨clients', chans', heq.trans hrun, ?_, ?_, ?_, ?_⟩
      · intro p hp hpx
        rcases List.mem_cons.1 hp with rfl | hp
        · rw [h2 c.Send (fun q hq _ => hfresh q hq), hch1, if_pos rfl]
        · rw [h1 p hp hpx, hsame p hp]
      · intro r hr
        have hrc : c.Send ≠ r := hr (k, c) (List.mem_cons_self _ _) hex
        rw [h2 r (fun p hp hpx => hr p (List.mem_cons_of_mem _ hp) hpx), hch1, if_neg hrc]
      · intro q hq
        exact hsub1 q (h3 q hq)
      · intro p hp hpx hfull q hq
        rcases List.mem_cons.1 hp with rfl | hp
        · exact hdrop1 hfull q (h3 q hq)
        · exact h4 p hp hpx (by rw [hsame p hp]; exact hfull) q hq
    · -- the head is excluded
      have hopen1 : ∀ p ∈ rest, (chanAt chans p.2.Send).closed = false :=
        fun p hp => hopen p (List.mem_cons_of_mem _ hp)
      obtain ⟨clients', chans', hrun, h1, h2, h3, h4⟩ := ih clients chans hnd' hopen1
      refine ⟨clients', chans', ?_, ?_, ?_, h3, ?_⟩
      · simp only [broadcastLoop, hex, if_false]
        exact hrun
      · intro p hp hpx
        rcases List.mem_cons.1 hp with rfl | hp
        · exact absurd hpx hex
        · exact h1 p hp hpx
      · intro r hr
        exact h2 r (fun p hp hpx => hr p (List.mem_cons_of_mem _ hp) hpx)
      · intro p hp hpx hfull q hq
        rcases List.mem_cons.1 hp with rfl | hp
        · exact absurd hpx hex
        · exact h4 p hp hpx hfull q hq

theorem broadcast_spec (s : State) (msg : BroadcastMessage)
    (hsend : ((members s msg.RoomID).map Client.Send).Nodup)
    (hopen : ∀ c ∈ members s msg.RoomID, (chanAt s.chans c.Send).closed = false) :
    ∃ s', broadcast s msg = some s' ∧
      s'.pendingLeaves = s.pendingLeaves ∧ s'.timers = s.timers ∧
      s'.nextTimer = s.nextTimer ∧
      (∀ c ∈ members s msg.RoomID, c.UserID ≠ msg.Exclude →
        chanAt s'.chans c.Send = afterSend msg.Message (chanAt s.chans c.Send)) ∧
      (∀ r, (∀ c ∈ members s msg.RoomID, c.UserID ≠ msg.Exclude → c.Send ≠ r) →
        chanAt s'.chans r = chanAt s.chans r) ∧
      (∀ q, q ∈ clientsOf s' msg.RoomID → q ∈ clientsOf s msg.RoomID) ∧
      (∀ p ∈ clientsOf s msg.RoomID, p.2.UserID ≠ msg.Exclude →
        (chanAt s.chans p.2.Send).isFull = true →
        ∀ q ∈ clientsOf s' msg.RoomID, q.1 ≠ p.1) := by
  cases hroom : mapGet s.rooms msg.RoomID with
  | none =>
    have hm : members s msg.RoomID = [] := by simp [members, clientsOf, hroom]
    have hc : clientsOf s msg.RoomID = [] := by simp [clientsOf, hroom]
    refine ⟨s, by simp [broadcast, hroom], rfl, rfl, rfl, ?_, ?_, ?_, ?_⟩
    · simp [hm]
    · simp
    · simp
    · simp [hc]
  | some clients =>
    have hc : clientsOf s msg.RoomID = clients := by simp [clientsOf, hroom]
    have hm : members s msg.RoomID = clients.map Prod.snd := by simp [members, hc]
    rw [hm, List.map_map] at hsend
    obtain ⟨clients', chans', hrun, h1, h2, h3, h4⟩ :=
      broadcastLoop_spec msg clients clients s.chans hsend
        (fun p hp => hopen p.2 (by rw [hm]; exact List.mem_map.2 ⟨p, hp, rfl⟩))
    have hc' : clientsOf { s with rooms := mapSet s.rooms msg.RoomID clients', chans := chans' }
        msg.RoomID = clients' := by
      simp [clientsOf, mapGet_mapSet]
    refine ⟨{ s with rooms := mapSet s.rooms msg.RoomID clients', chans := chans' },
      by simp [broadcast, hroom, hrun], rfl, rfl, rfl, ?_, ?_, ?_, ?_⟩
    · intro c hcm hcx
      rw [hm] at hcm
      obtain ⟨p, hp, rfl⟩ := List.mem_map.1 hcm
      exact h1 p hp hcx
    · intro r hr
      apply h2 r
      intro p hp hpx
      exact hr p.2 (by rw [hm]; exact List.mem_map.2 ⟨p, hp, rfl⟩) hpx
    · intro q hq
      rw [hc'] at hq
      rw [hc]
      exact h3 q hq
    · intro p hp hpx hfull q hq
      rw [hc'] at hq
      rw [hc] at hp
      exact h4 p hp hpx hfull q hq

/-! ## One broadcast request -/

/-- C3: in a room whose members have distinct, open queues, a broadcast request for
which a non-excluded member connection C has a full outbound queue is processed without
a panic, closes C's queue and removes C from the room's membership, and the message is
still appended (once, at the end) to the queue of every non-excluded member of the room
whose queue has room; such a queue stays open. -/
theorem broadcast_drops_full_queue (s : State) (msg : BroadcastMessage)
    (hsend : ((members s msg.RoomID).map Client.Send).Nodup)
    (hopen : ∀ c ∈ members s msg.RoomID, (chanAt s.chans c.Send).closed = false)
    (C : Client) (hC : C ∈ members s msg.RoomID) (hCx : C.UserID ≠ msg.Exclude)
    (hfull : (chanAt s.chans C.Send).isFull = true) :
    ∃ s', broadcast s msg = some s' ∧
      (chanAt s'.chans C.Send).closed = true ∧
      C ∉ members s' msg.RoomID ∧
      ∀ D ∈ members s msg.RoomID, D.UserID ≠ msg.Exclude →
        (chanAt s.chans D.Send).isFull = false →
        (chanAt s'.chans D.Send).buf = (chanAt s.chans D.Send).buf ++ [msg.Message] ∧
        (chanAt s'.chans D.Send).closed = false := by
  obtain ⟨s', hrun, _, _, _, h1, _, h3, h4⟩ := broadcast_spec s msg hsend hopen
  have hlt : ¬ (chanAt s.chans C.Send).buf.length < (chanAt s.chans C.Send).cap := by
    simpa [Chan.isFull] using hfull
  refine ⟨s', hrun, ?_, ?_, ?_⟩
  · rw [h1 C hC hCx]
    simp [afterSend, hlt]
  · intro hC'
    obtain ⟨q, hq, hqC⟩ := List.mem_map.1 hC'
    obtain ⟨p, hp, hpC⟩ := List.mem_map.1 hC
    have hsend' : ((clientsOf s msg.RoomID).map (fun p => p.2.Send)).Nodup := by
      have := hsend
      unfold members at this
      rwa [List.map_map] at this
    have hpq : q = p :=
      List.inj_on_of_nodup_map hsend' (h3 q hq) hp (by rw [hqC, hpC])
    exact h4 p hp (by rw [hpC]; exact hCx) (by rw [hpC]; exact hfull) q hq (by rw [hpq])
  · intro D hD hDx hDroom
    have hlt' : (chanAt s.chans D.Send).buf.length < (chanAt s.chans D.Send).cap := by
      simpa [Chan.isFull] using hDroom
    rw [h1 D hD hDx]
    simp [afterSend, hlt', hopen D hD]

/-- C2, as the code has it: in a room whose members have distinct, open queues, one
broadcast request (R, m, x) is processed without a panic, leaves the queue of every
member whose user id equals x as it was, leaves every queue that belongs to no member
of R as it was, and appends m once to the queue of every other member of R whose queue
is not full. -/
theorem broadcast_delivers_once (s : State) (msg : BroadcastMessage)
    (hsend : ((members s msg.RoomID).map Client.Send).Nodup)
    (hopen : ∀ c ∈ members s msg.RoomID, (chanAt s.chans c.Send).closed = false) :
    ∃ s', broadcast s msg = some s' ∧
      (∀ c ∈ members s msg.RoomID, c.UserID = msg.Exclude →
        chanAt s'.chans c.Send = chanAt s.chans c.Send) ∧
      (∀ r, r ∉ (members s msg.RoomID).map Client.Send →
        chanAt s'.chans r = chanAt s.chans r) ∧
      (∀ c ∈ members s msg.RoomID, c.UserID ≠ msg.Exclude →
        (chanAt s.chans c.Send).isFull = false →
        (chanAt s'.chans c.Send).buf = (chanAt s.chans c.Send).buf ++ [msg.Message]) := by
  obtain ⟨s', hrun, _, _, _, h1, h2, _, _⟩ := broadcast_spec s msg hsend hopen
  refine ⟨s', hrun, ?_, ?_, ?_⟩
  · intro c hc hcx
    apply h2
    intro d hd hdx hdc
    have : d = c := List.inj_on_of_nodup_map hsend hd hc hdc
    exact hdx (this ▸ hcx)
  · intro r hr
    apply h2
    intro d hd _ hdr
    exact hr (List.mem_map.2 ⟨d, hd, hdr⟩)
  · intro c hc hcx hroom
    have hlt : (chanAt s.chans c.Send).buf.length < (chanAt s.chans c.Send).cap := by
      simpa [Chan.isFull] using hroom
    rw [h1 c hc hcx]
    simp [afterSend, hlt]

theorem step_queueState (k : Nat) (hk : k < 256) :
    step (queueState k) (Event.broadcast pingAll) = some (queueState (k + 1), []) := by
  simp [step, broadcast, broadcastLoop, trySend, chanAt, mapGet, mapSet, queueState, pingAll,
    alice1, hk, List.replicate_succ']

theorem step_queueState_full (k : Nat) (hk : ¬ k < 256) :
    step (queueState k) (Event.broadcast pingAll) = some (droppedState k, []) := by
  simp [step, broadcast, broadcastLoop, trySend, chanAt, mapGet, mapSet, queueState, pingAll,
    alice1, closeChan, mapDelete, hk, droppedState]

theorem run_queueState (n : Nat) :
    ∀ k, k + n ≤ 256 →
      run (queueState k) (List.replicate n (Event.broadcast pingAll)) =
        some (queueState (k + n)) := by
  induction n with
  | zero =>
    intro k _
    rfl
  | succ n ih =>
    intro k hk
    have hstep := step_queueState k (by omega)
    simp only [List.replicate_succ, run, hstep]
    rw [ih (k + 1) (by omega)]
    congr 2
    omega

theorem run_cons (s : State) (e : Event) (es : List Event) (s' : State) (out : List Effect)
    (h : step s e = some (s', out)) : run s (e :: es) = run s' es := by
  simp only [run, h]

theorem run_append (es1 : List Event) :
    ∀ (s : State) (es2 : List Event),
      run s (es1 ++ es2) = (run s es1).bind (fun s' => run s' es2) := by
  induction es1 with
  | nil =>
    intro s es2
    rfl
  | cons e es1 ih =>
    intro s es2
    cases h : step s e with
    | none => simp [run, h]
    | some r =>
      obtain ⟨s', out⟩ := r
      simp only [List.cons_append, run, h]
      exact ih s' es2

/-- The state `queueState 256` arises from the empty registry: `alice1` registers and
256 messages are broadcast to its room while its send loop takes none of them. -/
theorem queueState_reachable :
    run State.init (Event.register alice1 :: List.replicate 256 (Event.broadcast pingAll)) =
      some (queueState 256) := by
  have h1 : step State.init (Event.register alice1) =
      some ({ State.init with rooms := [("room-1", [("conn-1", alice1)])] },
            [BroadcastToRoom "room-1" (joinMsg alice1) "", Effect.spawnUserList "room-1"]) := by
    decide
  have h2 : step { State.init with rooms := [("room-1", [("conn-1", alice1)])] }
      (Event.broadcast pingAll) = some (queueState 1, []) := by
    decide
  rw [run_cons _ _ _ _ _ h1]
  have h3 : List.replicate 256 (Event.broadcast pingAll) =
      Event.broadcast pingAll :: List.replicate 255 (Event.broadcast pingAll) := rfl
  rw [h3, run_cons _ _ _ _ _ h2]
  exact run_queueState 255 1 (by omega)

theorem queueState_buf (k : Nat) :
    (chanAt (queueState k).chans alice1.Send).buf = List.replicate k ping := by
  simp [chanAt, mapGet, queueState, alice1]

theorem dropped_buf (k : Nat) :
    (chanAt (droppedState k).chans alice1.Send).buf = List.replicate k ping := by
  simp [chanAt, mapGet, droppedState, alice1]

/-- Counterexample to C2 as stated: `alice1` is a member of room-1 and is not excluded,
its queue is open and full, and processing the broadcast request leaves the queue's
buffer as it was: the message is not enqueued on it. -/
theorem broadcast_skips_full_queue :
    alice1 ∈ members (queueState 256) pingAll.RoomID ∧
    alice1.UserID ≠ pingAll.Exclude ∧
    ((members (queueState 256) pingAll.RoomID).map Client.Send).Nodup ∧
    (∀ c ∈ members (queueState 256) pingAll.RoomID,
      (chanAt (queueState 256).chans c.Send).closed = false) ∧
    ∃ s', broadcast (queueState 256) pingAll = some s' ∧
      (chanAt s'.chans alice1.Send).buf = (chanAt (queueState 256).chans alice1.Send).buf ∧
      (chanAt s'.chans alice1.Send).buf ≠
        (chanAt (queueState 256).chans alice1.Send).buf ++ [pingAll.Message] := by
  have hs := step_queueState_full 256 (by omega)
  simp only [step, Option.map_eq_some'] at hs
  obtain ⟨s', hb, hs'⟩ := hs
  have hs'' : s' = droppedState 256 := (Prod.mk.inj hs').1
  refine ⟨by decide, by decide, by decide, by decide, s', hb, ?_, ?_⟩
  · rw [hs'', queueState_buf, dropped_buf]
  · rw [hs'', queueState_buf, dropped_buf]
    intro h
    have hlen := congrArg List.length h
    rw [List.length_append, List.length_replicate] at hlen
    simp at hlen

/-! ## Instances on the sample states -/

/-- Instance of C3: in `busyRoom` the queue of `alice1` is full and that of `bob1` is
not. -/
theorem broadcast_drops_full_queue_witness :
    ((members busyRoom pingAll.RoomID).map Client.Send).Nodup ∧
    (∀ c ∈ members busyRoom pingAll.RoomID, (chanAt busyRoom.chans c.Send).closed = false) ∧
    alice1 ∈ members busyRoom pingAll.RoomID ∧
    alice1.UserID ≠ pingAll.Exclude ∧
    (chanAt busyRoom.chans alice1.Send).isFull = true ∧
    ∃ s', broadcast busyRoom pingAll = some s' ∧
      (chanAt s'.chans alice1.Send).closed = true ∧
      alice1 ∉ members s' pingAll.RoomID ∧
      ∀ D ∈ members busyRoom pingAll.RoomID, D.UserID ≠ pingAll.Exclude →
        (chanAt busyRoom.chans D.Send).isFull = false →
        (chanAt s'.chans D.Send).buf = (chanAt busyRoom.chans D.Send).buf ++ [pingAll.Message] ∧
        (chanAt s'.chans D.Send).closed = false :=
  have hfull : (chanAt busyRoom.chans alice1.Send).isFull = true := by
    have hbuf : (chanAt busyRoom.chans alice1.Send).buf = List.replicate 256 ping := rfl
    have hcap : (chanAt busyRoom.chans alice1.Send).cap = 256 := rfl
    rw [Chan.isFull, hbuf, hcap, List.length_replicate]
    rfl
  ⟨by decide, by decide, by decide, by decide, hfull,
    broadcast_drops_full_queue busyRoom pingAll (by decide) (by decide) alice1 (by decide)
      (by decide) hfull⟩

/-- Instance of C2 as amended, on `busyRoom`. -/
theorem broadcast_delivers_once_witness :
    ((members busyRoom pingAll.RoomID).map Client.Send).Nodup ∧
    (∀ c ∈ members busyRoom pingAll.RoomID, (chanAt busyRoom.chans c.Send).closed = false) ∧
    ∃ s', broadcast busyRoom pingAll = some s' ∧
      (∀ c ∈ members busyRoom pingAll.RoomID, c.UserID = pingAll.Exclude →
        chanAt s'.chans c.Send = chanAt busyRoom.chans c.Send) ∧
      (∀ r, r ∉ (members busyRoom pingAll.RoomID).map Client.Send →
        chanAt s'.chans r = chanAt busyRoom.chans r) ∧
      (∀ c ∈ members busyRoom pingAll.RoomID, c.UserID ≠ pingAll.Exclude →
        (chanAt busyRoom.chans c.Send).isFull = false →
        (chanAt s'.chans c.Send).buf =
          (chanAt busyRoom.chans c.Send).buf ++ [pingAll.Message]) :=
  ⟨by decide, by decide, broadcast_delivers_once busyRoom pingAll (by decide) (by decide)⟩

/-- Instance of C8: `alice1` unregisters while `alice2` is still in the room. -/
theorem unregister_pending_leave_witness :
    ((∃ clients, mapGet twoTabs.rooms alice1.RoomID = some clients ∧
          mapGet clients alice1.ConnID ≠ none) →
        (chanAt twoTabs.chans alice1.Send).closed = false) ∧
    ∃ s' effs, unregister twoTabs alice1 = some (s', effs) ∧
      (∀ clients, mapGet s'.rooms alice1.RoomID = some clients →
          mapGet clients alice1.ConnID = none) ∧
      ((∀ m ∈ members s' alice1.RoomID, m.UserID ≠ alice1.UserID) →
          mapGet s'.pendingLeaves alice1.UserID =
            some { id := twoTabs.nextTimer, client := alice1 } ∧
          s'.timers = twoTabs.timers ++ [{ id := twoTabs.nextTimer, client := alice1 }] ∧
          effs = []) ∧
      ((∃ m ∈ members s' alice1.RoomID, m.UserID = alice1.UserID) →
          s'.pendingLeaves = twoTabs.pendingLeaves ∧ s'.timers = twoTabs.timers ∧
          effs = [Effect.spawnUserList alice1.RoomID]) :=
  ⟨fun _ => by decide, unregister_pending_leave twoTabs alice1 (fun _ => by decide)⟩

/-- Instance of C9: `alice1`, alone in its room, unregisters; the timer started is the
one with identity 0. -/
theorem grace_timer_fires_witness :
    unregister oneTab alice1 =
      some ({ rooms := []
              pendingLeaves := [("alice", { id := 0, client := alice1 })]
              chans := [(1, { buf := [], cap := 256, closed := true })]
              timers := [{ id := 0, client := alice1 }]
              nextTimer := 1 }, []) ∧
    (fire { rooms := []
            pendingLeaves := [("alice", { id := 0, client := alice1 })]
            chans := [(1, { buf := [], cap := 256, closed := true })]
            timers := [{ id := 0, client := alice1 }]
            nextTimer := 1 } 0).2 =
      [Effect.submit { RoomID := "room-1",
                       Message := { type := "user_left",
                                    payload := Payload.user "alice" "Alice" },
                       Exclude := "" },
       Effect.spawnUserList "room-1"] :=
  have hun : unregister oneTab alice1 =
      some ({ rooms := []
              pendingLeaves := [("alice", { id := 0, client := alice1 })]
              chans := [(1, { buf := [], cap := 256, closed := true })]
              timers := [{ id := 0, client := alice1 }]
              nextTimer := 1 }, []) := by decide
  ⟨hun, ((((grace_timer_fires oneTab alice1 _ _ hun (by decide)).2 _ (by decide)).2.2.2.1)
    (by decide)).2.2⟩

/-! ## How the steps change the rooms and the channels -/

theorem mapGet_eq_none_iff {α β : Type} [DecidableEq α] (m : GoMap α β) (a : α) :
    mapGet m a = none ↔ ∀ p ∈ m, p.1 ≠ a := by
  induction m with
  | nil => simp [mapGet]
  | cons p m ih =>
    obtain ⟨k, v⟩ := p
    by_cases hk : k = a
    · simp [mapGet, hk]
    · simp [mapGet, hk, ih]

theorem mapGet_mem {α β : Type} [DecidableEq α] (m : GoMap α β) (a : α) (b : β)
    (h : mapGet m a = some b) : (a, b) ∈ m := by
  induction m with
  | nil => simp [mapGet] at h
  | cons p m ih =>
    obtain ⟨k, v⟩ := p
    by_cases hk : k = a
    · simp only [mapGet, hk, if_true, Option.some.injEq] at h
      simp [hk, h]
    · simp only [mapGet, hk, if_false] at h
      exact List.mem_cons_of_mem _ (ih h)

theorem mapDelete_of_absent {α β : Type} [DecidableEq α] (m : GoMap α β) (a : α)
    (h : mapGet m a = none) : mapDelete m a = m := by
  unfold mapDelete
  rw [List.filter_eq_self]
  intro p hp
  simpa using (mapGet_eq_none_iff m a).1 h p hp

theorem mapSet_of_absent {α β : Type} [DecidableEq α] (m : GoMap α β) (a : α) (b : β)
    (h : mapGet m a = none) : mapSet m a b = m ++ [(a, b)] := by
  induction m with
  | nil => rfl
  | cons p m ih =>
    obtain ⟨k, v⟩ := p
    by_cases hk : k = a
    · simp [mapGet, hk] at h
    · simp only [mapGet, hk, if_false] at h
      simp [mapSet, hk, ih h]

theorem mem_mapSet {α β : Type} [DecidableEq α] (m : GoMap α β) (a : α) (b : β)
    (p : α × β) (h : p ∈ mapSet m a b) : p = (a, b) ∨ p ∈ m := by
  induction m with
  | nil =>
    simp only [mapSet, List.mem_singleton] at h
    exact Or.inl h
  | cons q m ih =>
    obtain ⟨k, v⟩ := q
    by_cases hk : k = a
    · simp only [mapSet, hk, if_true, List.mem_cons] at h
      rcases h with h | h
      · exact Or.inl h
      · exact Or.inr (List.mem_cons_of_mem _ h)
    · simp only [mapSet, hk, if_false, List.mem_cons] at h
      rcases h with h | h
      · exact Or.inr (h ▸ List.mem_cons_self _ _)
      · rcases ih h with h | h
        · exact Or.inl h
        · exact Or.inr (List.mem_cons_of_mem _ h)

theorem clientsOf_register (s : State) (c : Client) (R : String) :
    clientsOf (register s c).1 R =
      if c.RoomID = R then mapSet (clientsOf s c.RoomID) c.ConnID c else clientsOf s R := by
  have h : (register s c).1.rooms =
      mapSet s.rooms c.RoomID (mapSet (clientsOf s c.RoomID) c.ConnID c) := by
    unfold register clientsOf
    cases mapGet s.pendingLeaves c.UserID <;> rfl
  unfold clientsOf at h ⊢
  rw [h, mapGet_mapSet]
  by_cases hR : c.RoomID = R <;> simp [hR]

theorem chans_register (s : State) (c : Client) : (register s c).1.chans = s.chans := by
  unfold register
  cases mapGet s.pendingLeaves c.UserID <;> rfl

theorem unregisterRemove_eq (s : State) (c : Client) :
    unregisterRemove s c =
      if mapGet (clientsOf s c.RoomID) c.ConnID = none then some (s.rooms, s.chans)
      else if (chanAt s.chans c.Send).closed = true then none
      else some
        (if (mapDelete (clientsOf s c.RoomID) c.ConnID).length = 0
          then mapDelete s.rooms c.RoomID
          else mapSet s.rooms c.RoomID (mapDelete (clientsOf s c.RoomID) c.ConnID),
         mapSet s.chans c.Send { chanAt s.chans c.Send with closed := true }) := by
  unfold unregisterRemove clientsOf
  cases h1 : mapGet s.rooms c.RoomID with
  | none => simp [mapGet]
  | some clients =>
    cases h2 : mapGet clients c.ConnID with
    | none => simp [h2]
    | some x =>
      by_cases ho : (chanAt s.chans c.Send).closed = true
      · simp [h2, closeChan, ho]
      · by_cases hlen : (mapDelete clients c.ConnID).length = 0
        · simp [h2, closeChan, ho, hlen]
        · simp [h2, closeChan, ho, hlen]

theorem unregisterRemove_view (s : State) (c : Client)
    (rooms : GoMap String (GoMap String Client)) (chans : GoMap Nat Chan)
    (h : unregisterRemove s c = some (rooms, chans)) :
    (∀ R, (mapGet rooms R).getD [] =
      if c.RoomID = R then mapDelete (clientsOf s R) c.ConnID else clientsOf s R) ∧
    (mapGet (clientsOf s c.RoomID) c.ConnID = none → chans = s.chans) ∧
    (mapGet (clientsOf s c.RoomID) c.ConnID ≠ none →
      (chanAt s.chans c.Send).closed = false ∧
      chans = mapSet s.chans c.Send { chanAt s.chans c.Send with closed := true }) := by
  rw [unregisterRemove_eq] at h
  by_cases hst : mapGet (clientsOf s c.RoomID) c.ConnID = none
  · simp only [hst, if_true, Option.some.injEq, Prod.mk.injEq] at h
    refine ⟨fun R => ?_, fun _ => h.2.symm, fun hne => absurd hst hne⟩
    by_cases hR : c.RoomID = R
    · subst hR
      rw [if_pos rfl, mapDelete_of_absent _ _ hst, ← h.1]
      rfl
    · rw [if_neg hR, ← h.1]
      rfl
  · simp only [hst, if_false] at h
    by_cases ho : (chanAt s.chans c.Send).closed = true
    · simp [ho] at h
    · simp only [ho, Bool.false_eq_true, if_false, Option.some.injEq, Prod.mk.injEq] at h
      refine ⟨fun R => ?_, fun hn => absurd hn hst, fun _ => ⟨by simpa using ho, h.2.symm⟩⟩
      rw [← h.1]
      by_cases hlen : (mapDelete (clientsOf s c.RoomID) c.ConnID).length = 0
      · simp only [hlen, if_true, mapGet_mapDelete]
        by_cases hR : c.RoomID = R
        · subst hR
          simp [List.length_eq_zero.1 hlen]
        · simp [hR, clientsOf]
      · simp only [hlen, if_false, mapGet_mapSet]
        by_cases hR : c.RoomID = R
        · subst hR
          simp
        · simp [hR, clientsOf]

theorem unregister_view (s : State) (c : Client) (s' : State) (effs : List Effect)
    (h : unregister s c = some (s', effs)) :
    (∀ R, clientsOf s' R =
      if c.RoomID = R then mapDelete (clientsOf s R) c.ConnID else clientsOf s R) ∧
    (mapGet (clientsOf s c.RoomID) c.ConnID = none → s'.chans = s.chans) ∧
    (mapGet (clientsOf s c.RoomID) c.ConnID ≠ none →
      (chanAt s.chans c.Send).closed = false ∧
      s'.chans = mapSet s.chans c.Send { chanAt s.chans c.Send with closed := true }) := by
  obtain ⟨rooms, chans, hr, hcase⟩ := unregister_cases s c s' effs h
  have hv := unregisterRemove_view s c rooms chans hr
  have hrooms : s'.rooms = rooms ∧ s'.chans = chans := by
    rcases hcase with ⟨_, hs, _⟩ | ⟨_, hs, _⟩ <;> rw [hs] <;> exact ⟨rfl, rfl⟩
  unfold clientsOf at hv ⊢
  rw [hrooms.1, hrooms.2]
  exact hv

/-! ## Membership along register and unregister steps -/

theorem regInv_init : RegInv [] [] State.init where
  seen_iff := by simp
  mem_iff := by simp [members, clientsOf, State.init, mapGet]
  key_eq := by simp [clientsOf, State.init, mapGet]
  unique := by simp
  unreg_reg := by simp
  closed_unreg := by simp [chanAt, State.init, mapGet, newChan]

theorem regInv_register (hist : List Event) (seen : List Client) (s : State) (c : Client)
    (inv : RegInv hist seen s)
    (hfresh : ∀ d ∈ seen, d.ConnID ≠ c.ConnID ∧ d.Send ≠ c.Send) :
    RegInv (hist ++ [Event.register c]) (c :: seen) (register s c).1 := by
  have hnew : Event.register c ∉ hist := fun h =>
    (hfresh c ((inv.seen_iff c).2 h)).1 rfl
  have hnounreg : Event.unregister c ∉ hist := fun h => hnew (inv.unreg_reg c h)
  have habsent : mapGet (clientsOf s c.RoomID) c.ConnID = none := by
    rw [mapGet_eq_none_iff]
    intro p hp hk
    have hm : p.2 ∈ members s c.RoomID := List.mem_map.2 ⟨p, hp, rfl⟩
    have hreg := ((inv.mem_iff _ _).1 hm).1
    apply (hfresh p.2 ((inv.seen_iff _).2 hreg)).1
    rw [← inv.key_eq _ p hp, hk]
  have hcl : ∀ R, clientsOf (register s c).1 R =
      if c.RoomID = R then clientsOf s R ++ [(c.ConnID, c)] else clientsOf s R := by
    intro R
    rw [clientsOf_register]
    by_cases hR : c.RoomID = R
    · subst hR
      rw [if_pos rfl, if_pos rfl, mapSet_of_absent _ _ _ habsent]
    · rw [if_neg hR, if_neg hR]
  refine ⟨?_, ?_, ?_, ?_, ?_, ?_⟩
  · intro d
    simp only [List.mem_cons, List.mem_append, List.mem_singleton, Event.register.injEq,
      inv.seen_iff d]
    tauto
  · intro R d
    have hm : d ∈ members (register s c).1 R ↔
        (d ∈ members s R ∨ (c.RoomID = R ∧ d = c)) := by
      unfold members
      rw [hcl R]
      by_cases hR : c.RoomID = R
      · simp [hR]
      · simp [hR]
    rw [hm, inv.mem_iff R d]
    simp only [List.mem_append, List.mem_singleton, Event.register.injEq, reduceCtorEq,
      or_false]
    constructor
    · rintro (⟨h1, h2, h3⟩ | ⟨h1, rfl⟩)
      · exact ⟨Or.inl h1, h2, h3⟩
      · exact ⟨Or.inr rfl, h1, hnounreg⟩
    · rintro ⟨h1 | rfl, h2, h3⟩
      · exact Or.inl ⟨h1, h2, h3⟩
      · exact Or.inr ⟨h2, rfl⟩
  · intro R p hp
    rw [hcl R] at hp
    by_cases hR : c.RoomID = R
    · rw [if_pos hR] at hp
      rcases List.mem_append.1 hp with hp | hp
      · exact inv.key_eq R p hp
      · rw [List.mem_singleton.1 hp]
    · rw [if_neg hR] at hp
      exact inv.key_eq R p hp
  · intro a b ha hb hab
    simp only [List.mem_append, List.mem_singleton, Event.register.injEq] at ha hb
    rcases ha with ha | rfl <;> rcases hb with hb | rfl
    · exact inv.unique a b ha hb hab
    · exfalso
      have := hfresh a ((inv.seen_iff a).2 ha)
      rcases hab with h | h
      · exact this.1 h
      · exact this.2 h
    · exfalso
      have := hfresh b ((inv.seen_iff b).2 hb)
      rcases hab with h | h
      · exact this.1 h.symm
      · exact this.2 h.symm
    · rfl
  · intro d hd
    simp only [List.mem_append, List.mem_singleton, reduceCtorEq, or_false] at hd
    exact List.mem_append_left _ (inv.unreg_reg d hd)
  · intro r hr
    rw [chans_register] at hr
    obtain ⟨d, hd, hdr⟩ := inv.closed_unreg r hr
    exact ⟨d, List.mem_append_left _ hd, hdr⟩

theorem regInv_unregister (hist : List Event) (seen : List Client) (s : State) (c : Client)
    (inv : RegInv hist seen s) (hseen : c ∈ seen) :
    ∃ s' effs, unregister s c = some (s', effs) ∧
      RegInv (hist ++ [Event.unregister c]) seen s' := by
  have hreg : Event.register c ∈ hist := (inv.seen_iff c).1 hseen
  -- an entry stored under c's connection id in c's room is c itself
  have hentry : ∀ p ∈ clientsOf s c.RoomID, p.1 = c.ConnID → p.2 = c := by
    intro p hp hk
    have hm : p.2 ∈ members s c.RoomID := List.mem_map.2 ⟨p, hp, rfl⟩
    apply inv.unique _ _ ((inv.mem_iff _ _).1 hm).1 hreg
    left
    rw [← inv.key_eq _ p hp, hk]
  have hstored : mapGet (clientsOf s c.RoomID) c.ConnID ≠ none → c ∈ members s c.RoomID := by
    intro hne
    obtain ⟨x, hx⟩ := Option.ne_none_iff_exists'.1 hne
    have hmem := mapGet_mem _ _ _ hx
    have hxc : x = c := hentry _ hmem rfl
    exact List.mem_map.2 ⟨_, hmem, hxc⟩
  have hopen : (∃ clients, mapGet s.rooms c.RoomID = some clients ∧
      mapGet clients c.ConnID ≠ none) → (chanAt s.chans c.Send).closed = false := by
    rintro ⟨clients, hroom, hne⟩
    have hne' : mapGet (clientsOf s c.RoomID) c.ConnID ≠ none := by
      simpa [clientsOf, hroom] using hne
    have hnot := ((inv.mem_iff _ _).1 (hstored hne')).2.2
    rw [← Bool.not_eq_true]
    intro hcl
    obtain ⟨d, hd, hdc⟩ := inv.closed_unreg _ hcl
    have hdc' : d = c := inv.unique d c (inv.unreg_reg d hd) hreg (Or.inr hdc)
    exact hnot (hdc' ▸ hd)
  obtain ⟨s', effs, hun⟩ := unregister_total s c hopen
  obtain ⟨hcl, hch0, hch1⟩ := unregister_view s c s' effs hun
  refine ⟨s', effs, hun, ?_, ?_, ?_, ?_, ?_, ?_⟩
  · intro d
    simp only [List.mem_append, List.mem_singleton, reduceCtorEq, or_false]
    exact inv.seen_iff d
  · intro R d
    have hm : d ∈ members s' R ↔ (d ∈ members s R ∧ d ≠ c) := by
      unfold members
      rw [hcl R]
      by_cases hR : c.RoomID = R
      · subst hR
        rw [if_pos rfl]
        constructor
        · intro h
          obtain ⟨p, hp, rfl⟩ := List.mem_map.1 h
          have hp' := (mem_mapDelete _ _ _).1 hp
          refine ⟨List.mem_map.2 ⟨p, hp'.1, rfl⟩, ?_⟩
          intro hpc
          apply hp'.2
          rw [inv.key_eq _ p hp'.1, hpc]
        · rintro ⟨h, hne⟩
          obtain ⟨p, hp, rfl⟩ := List.mem_map.1 h
          refine List.mem_map.2 ⟨p, (mem_mapDelete _ _ _).2 ⟨hp, ?_⟩, rfl⟩
          intro hk
          exact hne (hentry p hp hk)
      · rw [if_neg hR]
        constructor
        · intro h
          refine ⟨h, ?_⟩
          rintro rfl
          exact hR ((inv.mem_iff R _).1 h).2.1
        · exact fun h => h.1
    rw [hm, inv.mem_iff R d]
    simp only [List.mem_append, List.mem_singleton, reduceCtorEq, or_false,
      Event.unregister.injEq, not_or]
    tauto
  · intro R p hp
    rw [hcl R] at hp
    by_cases hR : c.RoomID = R
    · rw [if_pos hR] at hp
      exact inv.key_eq R p ((mem_mapDelete _ _ _).1 hp).1
    · rw [if_neg hR] at hp
      exact inv.key_eq R p hp
  · intro a b ha hb hab
    simp only [List.mem_append, List.mem_singleton, reduceCtorEq, or_false] at ha hb
    exact inv.unique a b ha hb hab
  · intro d hd
    simp only [List.mem_append, List.mem_singleton, Event.unregister.injEq] at hd
    rcases hd with hd | rfl
    · exact List.mem_append_left _ (inv.unreg_reg d hd)
    · exact List.mem_append_left _ hreg
  · intro r hr
    by_cases hst : mapGet (clientsOf s c.RoomID) c.ConnID = none
    · rw [hch0 hst] at hr
      obtain ⟨d, hd, hdr⟩ := inv.closed_unreg r hr
      exact ⟨d, List.mem_append_left _ hd, hdr⟩
    · rw [(hch1 hst).2, chanAt_mapSet] at hr
      by_cases hrc : c.Send = r
      · exact ⟨c, by simp, hrc⟩
      · rw [if_neg hrc] at hr
        obtain ⟨d, hd, hdr⟩ := inv.closed_unreg r hr
        exact ⟨d, List.mem_append_left _ hd, hdr⟩

theorem regInv_run (es : List Event) :
    ∀ (hist : List Event) (seen : List Client) (s : State),
      RegInv hist seen s → lifecycleFrom seen es = true →
      ∃ s' seen', run s es = some s' ∧ RegInv (hist ++ es) seen' s' := by
  induction es with
  | nil =>
    intro hist seen s inv _
    exact ⟨s, seen, rfl, by simpa using inv⟩
  | cons e es ih =>
    intro hist seen s inv hwf
    cases e with
    | register c =>
      simp only [lifecycleFrom, Bool.and_eq_true, List.all_eq_true, decide_eq_true_eq] at hwf
      have inv' := regInv_register hist seen s c inv hwf.1
      obtain ⟨s', seen', hrun, hinv⟩ := ih _ _ _ inv' hwf.2
      refine ⟨s', seen', ?_, by simpa using hinv⟩
      simp only [run, step]
      exact hrun
    | unregister c =>
      simp only [lifecycleFrom, Bool.and_eq_true, decide_eq_true_eq] at hwf
      obtain ⟨s1, effs, hun, inv'⟩ := regInv_unregister hist seen s c inv hwf.1
      obtain ⟨s', seen', hrun, hinv⟩ := ih _ _ _ inv' hwf.2
      refine ⟨s', seen', ?_, by simpa using hinv⟩
      simp only [run, step, hun]
      exact hrun
    | broadcast m => simp [lifecycleFrom] at hwf
    | fire t => simp [lifecycleFrom] at hwf
    | recv r => simp [lifecycleFrom] at hwf

theorem lifecycleFrom_take (es : List Event) :
    ∀ (seen : List Client) (n : Nat),
      lifecycleFrom seen es = true → lifecycleFrom seen (es.take n) = true := by
  induction es with
  | nil =>
    intro seen n h
    simpa using h
  | cons e es ih =>
    intro seen n h
    cases n with
    | zero => rfl
    | succ n =>
      cases e with
      | register c =>
        simp only [lifecycleFrom, Bool.and_eq_true, List.take_succ_cons] at h ⊢
        exact ⟨h.1, ih _ n h.2⟩
      | unregister c =>
        simp only [lifecycleFrom, Bool.and_eq_true, List.take_succ_cons] at h ⊢
        exact ⟨h.1, ih _ n h.2⟩
      | broadcast m => simp [lifecycleFrom] at h
      | fire t => simp [lifecycleFrom] at h
      | recv r => simp [lifecycleFrom] at h

/-- C1: for every sequence of Register and Unregister steps that follows the
connection lifecycle (each registered connection has a connection id and a queue of
its own, and is unregistered only after it was registered), the coordinator processes
every initial part of the sequence from the empty registry without a panic, and after
it the connections stored under any room id R are exactly the connections registered
with room R so far and not unregistered so far. -/
theorem membership_registered_minus_unregistered (es : List Event)
    (hlife : lifecycle es = true) (n : Nat) :
    ∃ s, run State.init (es.take n) = some s ∧
      ∀ (R : String) (c : Client),
        c ∈ members s R ↔
          (Event.register c ∈ es.take n ∧ c.RoomID = R ∧ Event.unregister c ∉ es.take n) := by
  obtain ⟨s, seen, hrun, inv⟩ :=
    regInv_run (es.take n) [] [] State.init regInv_init (lifecycleFrom_take es [] n hlife)
  exact ⟨s, hrun, fun R c => by simpa using inv.mem_iff R c⟩

/-- Instance of C1: `alice1`, `alice2` and `bob1` register and `alice1` unregisters;
after the four steps room-1 holds `alice2` and `bob1`. -/
theorem membership_registered_minus_unregistered_witness :
    lifecycle [Event.register alice1, Event.register alice2, Event.register bob1,
               Event.unregister alice1] = true ∧
    ∃ s, run State.init
          ([Event.register alice1, Event.register alice2, Event.register bob1,
            Event.unregister alice1].take 4) = some s ∧
      ∀ (R : String) (c : Client),
        c ∈ members s R ↔
          (Event.register c ∈
              [Event.register alice1, Event.register alice2, Event.register bob1,
               Event.unregister alice1].take 4 ∧
            c.RoomID = R ∧
            Event.unregister c ∉
              [Event.register alice1, Event.register alice2, Event.register bob1,
               Event.unregister alice1].take 4) :=
  ⟨by decide, membership_registered_minus_unregistered _ (by decide) 4⟩

/-! ## Reachable states: empty rooms and pending leaves -/

/-- C5, the code at the failing input: `alice1` registers with the empty registry and
257 messages are broadcast to its room while its send loop takes none. The 257th finds
the queue full and drops the connection, and the state reached still has room-1 as a
key of the membership map, with no connection stored under it. -/
theorem empty_room_kept_after_drop :
    ∃ s, run State.init
          (Event.register alice1 :: List.replicate 257 (Event.broadcast pingAll)) = some s ∧
      mapGet s.rooms "room-1" = some [] ∧ members s "room-1" = [] := by
  have hsplit : Event.register alice1 :: List.replicate 257 (Event.broadcast pingAll) =
      (Event.register alice1 :: List.replicate 256 (Event.broadcast pingAll)) ++
        [Event.broadcast pingAll] := by
    rw [List.cons_append]
    exact congrArg _ (List.replicate_succ' 256 _)
  have hlast := step_queueState_full 256 (by omega)
  refine ⟨droppedState 256, ?_, rfl, rfl⟩
  rw [hsplit, run_append, queueState_reachable]
  simp only [Option.some_bind, run, hlast]

theorem broadcastLoop_subset (msg : BroadcastMessage) (rest : List (String × Client)) :
    ∀ (clients : GoMap String Client) (chans : GoMap Nat Chan)
      (clients' : GoMap String Client) (chans' : GoMap Nat Chan),
      broadcastLoop msg rest clients chans = some (clients', chans') →
      ∀ q ∈ clients', q ∈ clients := by
  induction rest with
  | nil =>
    intro clients chans clients' chans' h q hq
    simp only [broadcastLoop, Option.some.injEq, Prod.mk.injEq] at h
    rw [h.1]
    exact hq
  | cons hd rest ih =>
    obtain ⟨k, c⟩ := hd
    intro clients chans clients' chans' h q hq
    unfold broadcastLoop at h
    by_cases hex : c.UserID ≠ msg.Exclude
    · rw [if_pos hex] at h
      cases hts : trySend chans c.Send msg.Message with
      | sent chans1 =>
        rw [hts] at h
        exact ih _ _ _ _ h q hq
      | full =>
        rw [hts] at h
        cases hcl : closeChan chans c.Send with
        | none =>
          rw [hcl] at h
          cases h
        | some chans1 =>
          rw [hcl] at h
          exact ((mem_mapDelete _ _ _).1 (ih _ _ _ _ h q hq)).1
      | panicked =>
        rw [hts] at h
        cases h
    · rw [if_neg hex] at h
      exact ih _ _ _ _ h q hq

theorem broadcast_view (s : State) (msg : BroadcastMessage) (s' : State)
    (h : broadcast s msg = some s') :
    s'.pendingLeaves = s.pendingLeaves ∧ s'.timers = s.timers ∧
    s'.nextTimer = s.nextTimer ∧
    ∀ R, ∀ q ∈ clientsOf s' R, q ∈ clientsOf s R := by
  cases hroom : mapGet s.rooms msg.RoomID with
  | none =>
    simp only [broadcast, hroom, Option.some.injEq] at h
    subst h
    exact ⟨rfl, rfl, rfl, fun _ _ hq => hq⟩
  | some clients =>
    cases hloop : broadcastLoop msg clients clients s.chans with
    | none => simp [broadcast, hroom, hloop] at h
    | some r =>
      obtain ⟨clients', chans'⟩ := r
      simp only [broadcast, hroom, hloop, Option.some.injEq] at h
      subst h
      refine ⟨rfl, rfl, rfl, fun R q hq => ?_⟩
      simp only [clientsOf, mapGet_mapSet] at hq ⊢
      by_cases hR : msg.RoomID = R
      · subst hR
        simp only [if_true, Option.getD_some] at hq
        rw [hroom]
        exact broadcastLoop_subset msg clients clients s.chans clients' chans' hloop q hq
      · simpa [hR] using hq

theorem fire_view (s : State) (id : Nat) :
    (fire s id).1.rooms = s.rooms ∧ (fire s id).1.chans = s.chans ∧
    (fire s id).1.nextTimer = s.nextTimer ∧
    (∀ x ∈ (fire s id).1.timers, x ∈ s.timers) ∧
    (∀ u t, mapGet (fire s id).1.pendingLeaves u = some t →
      mapGet s.pendingLeaves u = some t) := by
  cases hf : s.timers.find? (fun t => decide (t.id = id)) with
  | none =>
    have hfire : fire s id = (s, []) := by simp only [fire, hf]
    rw [hfire]
    exact ⟨rfl, rfl, rfl, fun _ hx => hx, fun _ _ h => h⟩
  | some t =>
    cases hp : mapGet s.pendingLeaves t.client.UserID with
    | none =>
      have hfire : fire s id =
          ({ s with timers := s.timers.filter (fun x => decide (x.id ≠ id)) }, []) := by
        simp only [fire, hf, hp]
      rw [hfire]
      exact ⟨rfl, rfl, rfl, fun x hx => (List.mem_filter.1 hx).1, fun _ _ h => h⟩
    | some t' =>
      have hfire : fire s id =
          ({ s with timers := s.timers.filter (fun x => decide (x.id ≠ id))
                    pendingLeaves := mapDelete s.pendingLeaves t.client.UserID },
           [BroadcastToRoom t.client.RoomID (leftMsg t.client) "",
            Effect.spawnUserList t.client.RoomID]) := by
        simp only [fire, hf, hp]
      rw [hfire]
      refine ⟨rfl, rfl, rfl, fun x hx => (List.mem_filter.1 hx).1, fun u t0 h => ?_⟩
      simp only [mapGet_mapDelete] at h
      by_cases hu : t.client.UserID = u
      · simp [hu] at h
      · simpa [hu] using h

theorem recv_view (s : State) (r : Nat) :
    (recv s r).rooms = s.rooms ∧ (recv s r).pendingLeaves = s.pendingLeaves ∧
    (recv s r).timers = s.timers ∧ (recv s r).nextTimer = s.nextTimer := by
  unfold recv
  cases (chanAt s.chans r).buf <;> exact ⟨rfl, rfl, rfl, rfl⟩

theorem pending_register (s : State) (c : Client) (u : String) :
    mapGet (register s c).1.pendingLeaves u =
      if c.UserID = u then none else mapGet s.pendingLeaves u := by
  unfold register
  cases hp : mapGet s.pendingLeaves c.UserID with
  | none =>
    by_cases hu : c.UserID = u
    · simp [hu, ← hp]
    · simp [hu]
  | some t => simp [mapGet_mapDelete]

theorem members_register (s : State) (c : Client) (R : String) (d : Client)
    (h : d ∈ members (register s c).1 R) : d ∈ members s R ∨ d = c := by
  unfold members at h ⊢
  rw [clientsOf_register] at h
  obtain ⟨p, hp, rfl⟩ := List.mem_map.1 h
  by_cases hR : c.RoomID = R
  · rw [if_pos hR] at hp
    rcases mem_mapSet _ _ _ _ hp with hp | hp
    · exact Or.inr (by rw [hp])
    · exact Or.inl (List.mem_map.2 ⟨p, hR ▸ hp, rfl⟩)
  · rw [if_neg hR] at hp
    exact Or.inl (List.mem_map.2 ⟨p, hp, rfl⟩)

theorem members_unregister (s : State) (c : Client) (s' : State) (effs : List Effect)
    (h : unregister s c = some (s', effs)) (R : String) (d : Client)
    (hd : d ∈ members s' R) : d ∈ members s R := by
  unfold members at hd ⊢
  rw [(unregister_view s c s' effs h).1 R] at hd
  obtain ⟨p, hp, rfl⟩ := List.mem_map.1 hd
  by_cases hR : c.RoomID = R
  · rw [if_pos hR] at hp
    exact List.mem_map.2 ⟨p, ((mem_mapDelete _ _ _).1 hp).1, rfl⟩
  · rw [if_neg hR] at hp
    exact List.mem_map.2 ⟨p, hp, rfl⟩

theorem members_broadcast (s : State) (msg : BroadcastMessage) (s' : State)
    (h : broadcast s msg = some s') (R : String) (d : Client)
    (hd : d ∈ members s' R) : d ∈ members s R := by
  unfold members at hd ⊢
  obtain ⟨p, hp, rfl⟩ := List.mem_map.1 hd
  exact List.mem_map.2 ⟨p, (broadcast_view s msg s' h).2.2.2 R p hp, rfl⟩

/-! ## Pending leaves in reachable states -/

theorem fire_armed (s : State) (t : Timer)
    (hf : s.timers.find? (fun x => decide (x.id = t.id)) = some t) :
    (mapGet s.pendingLeaves t.client.UserID = none →
      fire s t.id =
        ({ s with timers := s.timers.filter (fun x => decide (x.id ≠ t.id)) }, [])) ∧
    (mapGet s.pendingLeaves t.client.UserID ≠ none →
      fire s t.id =
        ({ s with timers := s.timers.filter (fun x => decide (x.id ≠ t.id))
                  pendingLeaves := mapDelete s.pendingLeaves t.client.UserID },
         [BroadcastToRoom t.client.RoomID (leftMsg t.client) "",
          Effect.spawnUserList t.client.RoomID])) := by
  constructor
  · intro hp
    simp only [fire, hf, hp]
  · intro hp
    obtain ⟨t', ht'⟩ := Option.ne_none_iff_exists'.1 hp
    simp only [fire, hf, ht']

theorem unregister_last (s : State) (c : Client) (s' : State) (effs : List Effect)
    (h : unregister s c = some (s', effs)) :
    ((∀ d ∈ members s' c.RoomID, d.UserID ≠ c.UserID) ∧
      s'.pendingLeaves = mapSet s.pendingLeaves c.UserID { id := s.nextTimer, client := c } ∧
      s'.timers = s.timers ++ [{ id := s.nextTimer, client := c }] ∧
      s'.nextTimer = s.nextTimer + 1 ∧ effs = []) ∨
    ((∃ d ∈ members s' c.RoomID, d.UserID = c.UserID) ∧
      s'.pendingLeaves = s.pendingLeaves ∧ s'.timers = s.timers ∧
      s'.nextTimer = s.nextTimer ∧ effs = [Effect.spawnUserList c.RoomID]) := by
  obtain ⟨rooms, chans, _, hcase⟩ := unregister_cases s c s' effs h
  rcases hcase with ⟨hl, hs, he⟩ | ⟨hl, hs, he⟩
  · left
    subst hs
    refine ⟨?_, rfl, rfl, rfl, he⟩
    intro d hd
    obtain ⟨p, hp, rfl⟩ := List.mem_map.1 hd
    exact (isLastConnection_iff rooms c).1 hl p hp
  · right
    subst hs
    refine ⟨?_, rfl, rfl, rfl, he⟩
    have hl' : ¬ isLastConnection rooms c = true := by simp [hl]
    rw [isLastConnection_iff] at hl'
    push_neg at hl'
    obtain ⟨p, hp, hpu⟩ := hl'
    exact ⟨p.2, List.mem_map.2 ⟨p, hp, rfl⟩, hpu⟩

theorem step_register (s : State) (c : Client) (s' : State) (out : List Effect)
    (h : step s (Event.register c) = some (s', out)) :
    (register s c).1 = s' ∧ (register s c).2 = out := by
  simp only [step, Option.some.injEq] at h
  rw [h]
  exact ⟨rfl, rfl⟩

theorem step_fire (s : State) (id : Nat) (s' : State) (out : List Effect)
    (h : step s (Event.fire id) = some (s', out)) :
    (fire s id).1 = s' ∧ (fire s id).2 = out := by
  simp only [step, Option.some.injEq] at h
  rw [h]
  exact ⟨rfl, rfl⟩

theorem step_recv (s : State) (r : Nat) (s' : State) (out : List Effect)
    (h : step s (Event.recv r) = some (s', out)) : recv s r = s' ∧ out = [] := by
  simp only [step, Option.some.injEq, Prod.mk.injEq] at h
  exact ⟨h.1, h.2.symm⟩

theorem step_broadcast (s : State) (m : BroadcastMessage) (s' : State) (out : List Effect)
    (h : step s (Event.broadcast m) = some (s', out)) : broadcast s m = some s' ∧ out = [] := by
  simp only [step, Option.map_eq_some', Prod.mk.injEq] at h
  obtain ⟨s1, hb, hs1, ho⟩ := h
  exact ⟨hs1 ▸ hb, ho.symm⟩

theorem pendingOk_step (s : State) (e : Event) (s' : State) (out : List Effect)
    (inv : PendingOk s) (h : step s e = some (s', out)) : PendingOk s' := by
  intro u t ht
  cases e with
  | register c =>
    have h := step_register s c s' out h
    rw [← h.1, pending_register] at ht
    by_cases hu : c.UserID = u
    · simp [hu] at ht
    · rw [if_neg hu] at ht
      refine ⟨(inv u t ht).1, fun d hd => ?_⟩
      rw [← h.1] at hd
      rcases members_register s c _ d hd with hd | rfl
      · exact (inv u t ht).2 d hd
      · exact hu
  | unregister c =>
    simp only [step] at h
    have hsub := members_unregister s c s' out h
    rcases unregister_last s c s' out h with ⟨hno, hp, _⟩ | ⟨_, hp, _⟩
    · rw [hp, mapGet_mapSet] at ht
      by_cases hu : c.UserID = u
      · simp only [hu, if_true, Option.some.injEq] at ht
        subst ht
        exact ⟨hu, fun d hd => hu ▸ hno d hd⟩
      · rw [if_neg hu] at ht
        exact ⟨(inv u t ht).1, fun d hd => (inv u t ht).2 d (hsub _ d hd)⟩
    · rw [hp] at ht
      exact ⟨(inv u t ht).1, fun d hd => (inv u t ht).2 d (hsub _ d hd)⟩
  | broadcast m =>
    have hb := (step_broadcast s m s' out h).1
    rw [(broadcast_view s m s' hb).1] at ht
    exact ⟨(inv u t ht).1, fun d hd => (inv u t ht).2 d (members_broadcast s m s' hb _ d hd)⟩
  | fire id =>
    have h := step_fire s id s' out h
    rw [← h.1] at ht ⊢
    have hv := fire_view s id
    have ht' := hv.2.2.2.2 u t ht
    refine ⟨(inv u t ht').1, fun d hd => (inv u t ht').2 d ?_⟩
    unfold members clientsOf at hd ⊢
    rwa [hv.1] at hd
  | recv r =>
    have h := step_recv s r s' out h
    rw [← h.1] at ht ⊢
    have hv := recv_view s r
    rw [hv.2.1] at ht
    refine ⟨(inv u t ht).1, fun d hd => (inv u t ht).2 d ?_⟩
    unfold members clientsOf at hd ⊢
    rwa [hv.1] at hd

theorem pendingOk_run (es : List Event) :
    ∀ (s s' : State), PendingOk s → run s es = some s' → PendingOk s' := by
  induction es with
  | nil =>
    intro s s' inv h
    simp only [run, Option.some.injEq] at h
    exact h ▸ inv
  | cons e es ih =>
    intro s s' inv h
    cases hs : step s e with
    | none => simp [run, hs] at h
    | some r =>
      obtain ⟨s1, out⟩ := r
      simp only [run, hs] at h
      exact ih s1 s' (pendingOk_step s e s1 out inv hs) h

/-- Counterexample to C10 as stated: alice registers in room-1 and in room-2 and her
connection to room-1 closes. The state reached has a pending-leave entry for alice
while her connection to room-2 is still registered. -/
theorem pending_leave_while_connected_elsewhere :
    ∃ s, run State.init
          [Event.register alice1, Event.register alice3, Event.unregister alice1] = some s ∧
      mapGet s.pendingLeaves "alice" = some { id := 0, client := alice1 } ∧
      alice3 ∈ members s "room-2" ∧ alice3.UserID = "alice" :=
  ⟨{ rooms := [("room-2", [("conn-4", alice3)])]
     pendingLeaves := [("alice", { id := 0, client := alice1 })]
     chans := [(1, { buf := [], cap := 256, closed := true })]
     timers := [{ id := 0, client := alice1 }]
     nextTimer := 1 }, by decide, by decide, by decide, by decide⟩

/-- C10, as the code has it: in every state reachable from the empty registry (by
register, unregister, broadcast, timer and queue-reading steps) a user id that is a key
of the pending-leave map has no connection in the room of the connection whose closing
created the entry. In every step from such a state an entry appears under a user id
only by an `Unregister` of a connection of that user that leaves no connection of the
user in its room; after a `Register` no entry is stored under the user id of the
registered connection; and after an armed timer fires no entry is stored under the
user id of the connection it holds. -/
theorem pending_leave_room_has_no_connection (es : List Event) (s : State)
    (hreach : run State.init es = some s) :
    (∀ u t, mapGet s.pendingLeaves u = some t →
      t.client.UserID = u ∧ ∀ c ∈ members s t.client.RoomID, c.UserID ≠ u) ∧
    ∀ (e : Event) (s' : State) (out : List Effect), step s e = some (s', out) →
      (∀ u, mapGet s.pendingLeaves u = none → mapGet s'.pendingLeaves u ≠ none →
        ∃ c, e = Event.unregister c ∧ c.UserID = u ∧
          ∀ d ∈ members s' c.RoomID, d.UserID ≠ u) ∧
      (∀ c, e = Event.register c → mapGet s'.pendingLeaves c.UserID = none) ∧
      (∀ t, e = Event.fire t.id →
        s.timers.find? (fun x => decide (x.id = t.id)) = some t →
        mapGet s'.pendingLeaves t.client.UserID = none) := by
  refine ⟨pendingOk_run es State.init s (fun u t h => by simp [State.init, mapGet] at h) hreach,
    fun e s' out hstep => ⟨?_, ?_, ?_⟩⟩
  · intro u hnone hsome
    cases e with
    | register c =>
      have hstep := step_register s c s' out hstep
      rw [← hstep.1, pending_register] at hsome
      by_cases hu : c.UserID = u
      · simp [hu] at hsome
      · rw [if_neg hu] at hsome
        exact absurd hnone hsome
    | unregister c =>
      simp only [step] at hstep
      rcases unregister_last s c s' out hstep with ⟨hno, hp, _⟩ | ⟨_, hp, _⟩
      · rw [hp, mapGet_mapSet] at hsome
        by_cases hu : c.UserID = u
        · exact ⟨c, rfl, hu, fun d hd => hu ▸ hno d hd⟩
        · rw [if_neg hu] at hsome
          exact absurd hnone hsome
      · rw [hp] at hsome
        exact absurd hnone hsome
    | broadcast m =>
      have hb := (step_broadcast s m s' out hstep).1
      rw [(broadcast_view s m s' hb).1] at hsome
      exact absurd hnone hsome
    | fire id =>
      have hstep := step_fire s id s' out hstep
      rw [← hstep.1] at hsome
      obtain ⟨t, ht⟩ := Option.ne_none_iff_exists'.1 hsome
      have := (fire_view s id).2.2.2.2 u t ht
      rw [hnone] at this
      cases this
    | recv r =>
      have hstep := step_recv s r s' out hstep
      rw [← hstep.1, (recv_view s r).2.1] at hsome
      exact absurd hnone hsome
  · intro c he
    subst he
    have hstep := step_register s c s' out hstep
    rw [← hstep.1, pending_register, if_pos rfl]
  · intro t he hf
    subst he
    have hstep := step_fire s t.id s' out hstep
    rw [← hstep.1]
    by_cases hp : mapGet s.pendingLeaves t.client.UserID = none
    · rw [(fire_armed s t hf).1 hp]
      exact hp
    · rw [(fire_armed s t hf).2 hp]
      simp [mapGet_mapDelete]

/-- Instance of C10 as amended: the run of the counterexample, where the entry for
alice holds her closed connection to room-1. -/
theorem pending_leave_room_has_no_connection_witness :
    run State.init
        [Event.register alice1, Event.register alice3, Event.unregister alice1] =
      some { rooms := [("room-2", [("conn-4", alice3)])]
             pendingLeaves := [("alice", { id := 0, client := alice1 })]
             chans := [(1, { buf := [], cap := 256, closed := true })]
             timers := [{ id := 0, client := alice1 }]
             nextTimer := 1 } ∧
    ∀ c ∈ members
        { rooms := [("room-2", [("conn-4", alice3)])]
          pendingLeaves := [("alice", { id := 0, client := alice1 })]
          chans := [(1, { buf := [], cap := 256, closed := true })]
          timers := [{ id := 0, client := alice1 }]
          nextTimer := 1 } "room-1", c.UserID ≠ "alice" :=
  have hrun : run State.init
      [Event.register alice1, Event.register alice3, Event.unregister alice1] =
      some { rooms := [("room-2", [("conn-4", alice3)])]
             pendingLeaves := [("alice", { id := 0, client := alice1 })]
             chans := [(1, { buf := [], cap := 256, closed := true })]
             timers := [{ id := 0, client := alice1 }]
             nextTimer := 1 } := by decide
  ⟨hrun, ((pending_leave_room_has_no_connection _ _ hrun).1 "alice"
    { id := 0, client := alice1 } (by decide)).2⟩

/-! ## Presence events along a trace -/

theorem countP_mapSet_of_none {β : Type} (P : String × β → Bool) (m : GoMap String β)
    (a : String) (b : β) (h : ∀ p ∈ m, P p = false) :
    (mapSet m a b).countP P = if P (a, b) = true then 1 else 0 := by
  induction m with
  | nil =>
    by_cases hP : P (a, b) = true <;> simp [mapSet, hP]
  | cons q m ih =>
    obtain ⟨k, v⟩ := q
    have hq : P (k, v) = false := h (k, v) (List.mem_cons_self _ _)
    have hm : ∀ p ∈ m, P p = false := fun p hp => h p (List.mem_cons_of_mem _ hp)
    have hzero : m.countP P = 0 := by
      rw [List.countP_eq_zero]
      intro p hp
      simp [hm p hp]
    by_cases hk : k = a
    · by_cases hP : P (a, b) = true <;> simp [mapSet, hk, hP, hzero]
    · simp only [mapSet, if_neg hk, List.countP_cons, hq, ih hm]
      simp

theorem userConns_eq (s : State) (u R : String) :
    userConns s u R = (clientsOf s R).countP (fun p => decide (p.2.UserID = u)) := by
  unfold userConns members
  rw [List.countP_map]
  rfl

theorem userConns_eq_zero (s : State) (u R : String) :
    userConns s u R = 0 ↔ ∀ d ∈ members s R, d.UserID ≠ u := by
  unfold userConns
  rw [List.countP_eq_zero]
  simp

theorem userConns_zero_of_subset (s s' : State) (u R : String)
    (hsub : ∀ d ∈ members s' R, d ∈ members s R) (h : userConns s u R = 0) :
    userConns s' u R = 0 := by
  rw [userConns_eq_zero] at h ⊢
  exact fun d hd => h d (hsub d hd)

theorem userConns_register (s : State) (c : Client) (u R : String)
    (h : userConns s u R = 0) :
    userConns (register s c).1 u R = if c.RoomID = R ∧ c.UserID = u then 1 else 0 := by
  by_cases hR : c.RoomID = R
  · subst hR
    rw [userConns_eq, clientsOf_register, if_pos rfl, countP_mapSet_of_none]
    · by_cases hU : c.UserID = u <;> simp [hU]
    · intro p hp
      have := (userConns_eq_zero s u c.RoomID).1 h p.2 (List.mem_map.2 ⟨p, hp, rfl⟩)
      simpa using this
  · have : userConns (register s c).1 u R = userConns s u R := by
      rw [userConns_eq, userConns_eq, clientsOf_register, if_neg hR]
    rw [this, h]
    simp [hR]

theorem register_out (s : State) (c : Client) :
    (register s c).2 =
      if hasUser (clientsOf s c.RoomID) c.UserID = false ∧
          mapGet s.pendingLeaves c.UserID = none
      then [BroadcastToRoom c.RoomID (joinMsg c) "", Effect.spawnUserList c.RoomID]
      else [Effect.spawnUserList c.RoomID] := by
  unfold register clientsOf
  cases hp : mapGet s.pendingLeaves c.UserID with
  | some t => simp
  | none =>
    cases hu : hasUser ((mapGet s.rooms c.RoomID).getD []) c.UserID <;> simp [hu]

theorem register_timers (s : State) (c : Client) :
    (register s c).1.nextTimer = s.nextTimer ∧
    (register s c).1.timers.Sublist s.timers ∧
    (∀ t, mapGet s.pendingLeaves c.UserID = some t →
      ∀ x ∈ (register s c).1.timers, x.id ≠ t.id) := by
  unfold register
  cases hp : mapGet s.pendingLeaves c.UserID with
  | none => exact ⟨rfl, List.Sublist.refl _, fun t ht => by cases ht⟩
  | some t0 =>
    refine ⟨rfl, List.filter_sublist _, fun t ht x hx => ?_⟩
    cases ht
    exact ((mem_stopTimer _ _ _).1 hx).2

theorem fire_out (s : State) (id : Nat) :
    ((fire s id).2 = [] ∧ (fire s id).1.timers.Sublist s.timers) ∨
    ∃ t ∈ s.timers, t.id = id ∧
      (fire s id).2 = [BroadcastToRoom t.client.RoomID (leftMsg t.client) "",
                       Effect.spawnUserList t.client.RoomID] ∧
      (fire s id).1.timers = s.timers.filter (fun x => decide (x.id ≠ id)) := by
  cases hf : s.timers.find? (fun t => decide (t.id = id)) with
  | none =>
    left
    have hfire : fire s id = (s, []) := by simp only [fire, hf]
    rw [hfire]
    exact ⟨rfl, List.Sublist.refl _⟩
  | some t =>
    have hid : t.id = id := by simpa using List.find?_some hf
    have hmem : t ∈ s.timers := List.mem_of_find?_eq_some hf
    subst hid
    by_cases hp : mapGet s.pendingLeaves t.client.UserID = none
    · left
      rw [(fire_armed s t hf).1 hp]
      exact ⟨rfl, List.filter_sublist _⟩
    · right
      rw [(fire_armed s t hf).2 hp]
      exact ⟨t, hmem, rfl, rfl, rfl⟩

theorem joinedCount_join (c : Client) (u R : String) :
    joinedCount u R [BroadcastToRoom c.RoomID (joinMsg c) "", Effect.spawnUserList c.RoomID] =
      if c.RoomID = R ∧ c.UserID = u then 1 else 0 := by
  by_cases hR : c.RoomID = R <;> by_cases hU : c.UserID = u <;>
    simp [joinedCount, isPresence, BroadcastToRoom, joinMsg, hR, hU]

theorem leftCount_left (c : Client) (u R : String) :
    leftCount u R [BroadcastToRoom c.RoomID (leftMsg c) "", Effect.spawnUserList c.RoomID] =
      if c.UserID = u ∧ c.RoomID = R then 1 else 0 := by
  by_cases hR : c.RoomID = R <;> by_cases hU : c.UserID = u <;>
    simp [leftCount, isPresence, BroadcastToRoom, leftMsg, hR, hU]

theorem joinedCount_left (c : Client) (u R : String) :
    joinedCount u R [BroadcastToRoom c.RoomID (leftMsg c) "", Effect.spawnUserList c.RoomID]
      = 0 := by
  simp [joinedCount, isPresence, BroadcastToRoom, leftMsg]

theorem leftCount_join (c : Client) (u R : String) :
    leftCount u R [BroadcastToRoom c.RoomID (joinMsg c) "", Effect.spawnUserList c.RoomID]
      = 0 := by
  simp [leftCount, isPresence, BroadcastToRoom, joinMsg]

theorem members_fire (s : State) (id : Nat) (R : String) :
    members (fire s id).1 R = members s R := by
  unfold members clientsOf
  rw [(fire_view s id).1]

theorem members_recv (s : State) (r : Nat) (R : String) :
    members (recv s r) R = members s R := by
  unfold members clientsOf
  rw [(recv_view s r).1]

theorem joined_step (s : State) (e : Event) (s' : State) (out : List Effect)
    (h : step s e = some (s', out)) (u R : String) :
    joinedCount u R out =
      if userConns s u R = 0 ∧ userConns s' u R = 1 ∧ mapGet s.pendingLeaves u = none
      then 1 else 0 := by
  cases e with
  | register c =>
    obtain ⟨hs, ho⟩ := step_register s c s' out h
    subst hs
    subst ho
    rw [register_out]
    by_cases hcu : c.RoomID = R ∧ c.UserID = u
    · obtain ⟨hR, hU⟩ := hcu
      subst hR
      subst hU
      have hno : hasUser (clientsOf s c.RoomID) c.UserID = false ↔
          userConns s c.UserID c.RoomID = 0 := by
        rw [no_member_iff, userConns_eq_zero]
      by_cases h0 : userConns s c.UserID c.RoomID = 0
      · have h1 := userConns_register s c c.UserID c.RoomID h0
        simp only [true_and, and_self, if_true] at h1
        by_cases hp : mapGet s.pendingLeaves c.UserID = none
        · rw [if_pos ⟨hno.2 h0, hp⟩, joinedCount_join, if_pos ⟨rfl, rfl⟩, if_pos ⟨h0, h1, hp⟩]
        · rw [if_neg (fun hc => hp hc.2), if_neg (fun hc => hp hc.2.2)]
          simp [joinedCount, isPresence]
      · rw [if_neg (fun hc => h0 (hno.1 hc.1)), if_neg (fun hc => h0 hc.1)]
        simp [joinedCount, isPresence]
    · have hrhs : ¬ (userConns s u R = 0 ∧ userConns (register s c).1 u R = 1 ∧
          mapGet s.pendingLeaves u = none) := by
        rintro ⟨h0, h1, _⟩
        rw [userConns_register s c u R h0, if_neg hcu] at h1
        cases h1
      rw [if_neg hrhs]
      split
      · rw [joinedCount_join, if_neg hcu]
      · simp [joinedCount, isPresence]
  | unregister c =>
    simp only [step] at h
    have hrhs : ¬ (userConns s u R = 0 ∧ userConns s' u R = 1 ∧
        mapGet s.pendingLeaves u = none) := by
      rintro ⟨h0, h1, _⟩
      rw [userConns_zero_of_subset s s' u R (members_unregister s c s' out h R) h0] at h1
      cases h1
    rw [if_neg hrhs]
    rcases unregister_last s c s' out h with ⟨_, _, _, _, ho⟩ | ⟨_, _, _, _, ho⟩ <;>
      simp [ho, joinedCount, isPresence]
  | broadcast m =>
    obtain ⟨hb, ho⟩ := step_broadcast s m s' out h
    have hrhs : ¬ (userConns s u R = 0 ∧ userConns s' u R = 1 ∧
        mapGet s.pendingLeaves u = none) := by
      rintro ⟨h0, h1, _⟩
      rw [userConns_zero_of_subset s s' u R (members_broadcast s m s' hb R) h0] at h1
      cases h1
    rw [if_neg hrhs, ho]
    rfl
  | fire id =>
    obtain ⟨hs, ho⟩ := step_fire s id s' out h
    subst hs
    subst ho
    have hrhs : ¬ (userConns s u R = 0 ∧ userConns (fire s id).1 u R = 1 ∧
        mapGet s.pendingLeaves u = none) := by
      rintro ⟨h0, h1, _⟩
      unfold userConns at h0 h1
      rw [members_fire, h0] at h1
      cases h1
    rw [if_neg hrhs]
    rcases fire_out s id with ⟨ho, _⟩ | ⟨t, _, _, ho, _⟩
    · rw [ho]
      rfl
    · rw [ho, joinedCount_left]
  | recv r =>
    obtain ⟨hs, ho⟩ := step_recv s r s' out h
    subst hs
    have hrhs : ¬ (userConns s u R = 0 ∧ userConns (recv s r) u R = 1 ∧
        mapGet s.pendingLeaves u = none) := by
      rintro ⟨h0, h1, _⟩
      unfold userConns at h0 h1
      rw [members_recv, h0] at h1
      cases h1
    rw [if_neg hrhs, ho]
    rfl

/-! ## Counting the presence events of a run -/

theorem countP_filter_id (P : Timer → Bool) (l : List Timer) (t : Timer) (ht : t ∈ l) :
    (l.filter (fun x => decide (x.id ≠ t.id))).countP P + (if P t = true then 1 else 0) ≤
      l.countP P := by
  induction l with
  | nil => cases ht
  | cons x l ih =>
    have hle : (l.filter (fun x => decide (x.id ≠ t.id))).countP P ≤ l.countP P :=
      (List.filter_sublist l).countP_le P
    rw [List.filter_cons, List.countP_cons]
    by_cases hx : x.id = t.id
    · have hq : decide (x.id ≠ t.id) = false := by simp [hx]
      rw [hq]
      simp only [Bool.false_eq_true, if_false]
      rcases List.mem_cons.1 ht with rfl | ht
      · omega
      · have := ih ht
        omega
    · have hq : decide (x.id ≠ t.id) = true := by simp [hx]
      rw [hq]
      simp only [if_true, List.countP_cons]
      rcases List.mem_cons.1 ht with rfl | ht
      · exact absurd rfl hx
      · have := ih ht
        omega

theorem left_step (s : State) (e : Event) (s' : State) (out : List Effect)
    (h : step s e = some (s', out)) (u R : String) :
    leftCount u R out + armedFor u R s' ≤
      armedFor u R s +
        (if isLastClose u R { pre := s, ev := e, post := s', out := out } = true
          then 1 else 0) := by
  cases e with
  | register c =>
    obtain ⟨hs, ho⟩ := step_register s c s' out h
    subst hs
    subst ho
    have hle : armedFor u R (register s c).1 ≤ armedFor u R s :=
      (register_timers s c).2.1.countP_le _
    have hout : leftCount u R (register s c).2 = 0 := by
      rw [register_out]
      split
      · exact leftCount_join c u R
      · simp [leftCount, isPresence]
    rw [hout]
    omega
  | unregister c =>
    simp only [step] at h
    rcases unregister_last s c s' out h with ⟨hno, _, ht, _, ho⟩ | ⟨_, _, ht, _, ho⟩
    · subst ho
      have harm : armedFor u R s' =
          armedFor u R s + (if c.UserID = u ∧ c.RoomID = R then 1 else 0) := by
        unfold armedFor
        rw [ht, List.countP_append]
        by_cases hU : c.UserID = u <;> by_cases hR : c.RoomID = R <;> simp [hU, hR]
      have hclose : (c.UserID = u ∧ c.RoomID = R) →
          isLastClose u R { pre := s, ev := Event.unregister c, post := s', out := [] }
            = true := by
        rintro ⟨hU, hR⟩
        subst hU
        subst hR
        have := (userConns_eq_zero s' c.UserID c.RoomID).2 hno
        simp [isLastClose, this]
      rw [harm]
      by_cases hc : c.UserID = u ∧ c.RoomID = R
      · rw [if_pos hc, if_pos (hclose hc)]
        simp [leftCount]
      · rw [if_neg hc]
        simp [leftCount]
    · subst ho
      have harm : armedFor u R s' = armedFor u R s := by
        unfold armedFor
        rw [ht]
      rw [harm]
      simp [leftCount, isPresence]
  | broadcast m =>
    obtain ⟨hb, ho⟩ := step_broadcast s m s' out h
    have harm : armedFor u R s' = armedFor u R s := by
      unfold armedFor
      rw [(broadcast_view s m s' hb).2.1]
    rw [harm, ho]
    simp [leftCount]
  | fire id =>
    obtain ⟨hs, ho⟩ := step_fire s id s' out h
    subst hs
    subst ho
    rcases fire_out s id with ⟨ho, hsub⟩ | ⟨t, ht, hid, ho, htim⟩
    · have hle : armedFor u R (fire s id).1 ≤ armedFor u R s := hsub.countP_le _
      rw [ho]
      simp only [leftCount, List.countP_nil]
      omega
    · subst hid
      have hcount := countP_filter_id
        (fun x => decide (x.client.UserID = u) && decide (x.client.RoomID = R)) s.timers t ht
      rw [ho, leftCount_left]
      unfold armedFor
      rw [htim]
      by_cases hc : t.client.UserID = u ∧ t.client.RoomID = R
      · simp only [hc.1, hc.2, decide_True, Bool.and_self, if_true] at hcount
        rw [if_pos hc]
        omega
      · rw [if_neg hc]
        omega
  | recv r =>
    obtain ⟨hs, ho⟩ := step_recv s r s' out h
    subst hs
    have harm : armedFor u R (recv s r) = armedFor u R s := by
      unfold armedFor
      rw [(recv_view s r).2.2.1]
    rw [harm, ho]
    simp [leftCount]

theorem left_exec (u R : String) (es : List Event) :
    ∀ s : State,
      ((exec s es).map (fun x => leftCount u R x.out)).sum ≤
        armedFor u R s + (exec s es).countP (isLastClose u R) := by
  induction es with
  | nil =>
    intro s
    simp [exec]
  | cons e es ih =>
    intro s
    cases hs : step s e with
    | none => simp [exec, hs]
    | some r =>
      obtain ⟨s', out⟩ := r
      have h1 := left_step s e s' out hs u R
      have h2 := ih s'
      simp only [exec, hs, List.map_cons, List.sum_cons, List.countP_cons]
      omega

theorem exec_invariant (P : State → Prop)
    (hstep : ∀ s e s' out, P s → step s e = some (s', out) → P s') (es : List Event) :
    ∀ s : State, P s →
      ∀ x ∈ exec s es, P x.pre ∧ step x.pre x.ev = some (x.post, x.out) := by
  induction es with
  | nil =>
    intro s _ x hx
    simp [exec] at hx
  | cons e es ih =>
    intro s hP x hx
    cases hs : step s e with
    | none => simp [exec, hs] at hx
    | some r =>
      obtain ⟨s', out⟩ := r
      simp only [exec, hs, List.mem_cons] at hx
      rcases hx with rfl | hx
      · exact ⟨hP, hs⟩
      · exact ih s' (hstep s e s' out hP hs) x hx

theorem exec_split (es : List Event) :
    ∀ (s : State) (tr1 : List Transition) (x : Transition) (tr2 : List Transition),
      exec s es = tr1 ++ x :: tr2 → ∃ es2, tr2 = exec x.post es2 := by
  induction es with
  | nil =>
    intro s tr1 x tr2 h
    simp [exec] at h
  | cons e es ih =>
    intro s tr1 x tr2 h
    cases hs : step s e with
    | none => simp [exec, hs] at h
    | some r =>
      obtain ⟨s', out⟩ := r
      simp only [exec, hs] at h
      cases tr1 with
      | nil =>
        simp only [List.nil_append, List.cons.injEq] at h
        exact ⟨es, by rw [← h.1, h.2]⟩
      | cons y tr1 =>
        simp only [List.cons_append, List.cons.injEq] at h
        exact ih s' tr1 x tr2 h.2

theorem timersBelow_step (s : State) (e : Event) (s' : State) (out : List Effect)
    (inv : TimersBelow s) (h : step s e = some (s', out)) : TimersBelow s' := by
  cases e with
  | register c =>
    obtain ⟨hs, _⟩ := step_register s c s' out h
    subst hs
    obtain ⟨hn, hsub, _⟩ := register_timers s c
    refine ⟨fun u t ht => ?_, fun t ht => ?_⟩
    · rw [pending_register] at ht
      rw [hn]
      by_cases hu : c.UserID = u
      · simp [hu] at ht
      · rw [if_neg hu] at ht
        exact inv.1 u t ht
    · rw [hn]
      exact inv.2 t (hsub.subset ht)
  | unregister c =>
    simp only [step] at h
    rcases unregister_last s c s' out h with ⟨_, hp, ht, hn, _⟩ | ⟨_, hp, ht, hn, _⟩
    · refine ⟨fun u t h1 => ?_, fun t h1 => ?_⟩
      · rw [hp, mapGet_mapSet] at h1
        rw [hn]
        by_cases hu : c.UserID = u
        · simp only [hu, if_true, Option.some.injEq] at h1
          subst h1
          exact Nat.lt_succ_self _
        · rw [if_neg hu] at h1
          exact Nat.lt_succ_of_lt (inv.1 u t h1)
      · rw [ht] at h1
        rw [hn]
        rcases List.mem_append.1 h1 with h1 | h1
        · exact Nat.lt_succ_of_lt (inv.2 t h1)
        · rw [List.mem_singleton.1 h1]
          exact Nat.lt_succ_self _
    · refine ⟨fun u t h1 => ?_, fun t h1 => ?_⟩
      · rw [hp] at h1
        rw [hn]
        exact inv.1 u t h1
      · rw [ht] at h1
        rw [hn]
        exact inv.2 t h1
  | broadcast m =>
    obtain ⟨hb, _⟩ := step_broadcast s m s' out h
    obtain ⟨hp, ht, hn, _⟩ := broadcast_view s m s' hb
    refine ⟨fun u t h1 => ?_, fun t h1 => ?_⟩
    · rw [hp] at h1
      rw [hn]
      exact inv.1 u t h1
    · rw [ht] at h1
      rw [hn]
      exact inv.2 t h1
  | fire id =>
    obtain ⟨hs, _⟩ := step_fire s id s' out h
    subst hs
    obtain ⟨_, _, hn, ht, hp⟩ := fire_view s id
    refine ⟨fun u t h1 => ?_, fun t h1 => ?_⟩
    · rw [hn]
      exact inv.1 u t (hp u t h1)
    · rw [hn]
      exact inv.2 t (ht t h1)
  | recv r =>
    obtain ⟨hs, _⟩ := step_recv s r s' out h
    subst hs
    obtain ⟨_, hp, ht, hn⟩ := recv_view s r
    refine ⟨fun u t h1 => ?_, fun t h1 => ?_⟩
    · rw [hp] at h1
      rw [hn]
      exact inv.1 u t h1
    · rw [ht] at h1
      rw [hn]
      exact inv.2 t h1

theorem timerGone_step (id : Nat) (s : State) (e : Event) (s' : State) (out : List Effect)
    (inv : TimerGone id s) (h : step s e = some (s', out)) : TimerGone id s' := by
  cases e with
  | register c =>
    obtain ⟨hs, _⟩ := step_register s c s' out h
    subst hs
    obtain ⟨hn, hsub, _⟩ := register_timers s c
    exact ⟨fun t ht => inv.1 t (hsub.subset ht), by rw [hn]; exact inv.2⟩
  | unregister c =>
    simp only [step] at h
    rcases unregister_last s c s' out h with ⟨_, _, ht, hn, _⟩ | ⟨_, _, ht, hn, _⟩
    · refine ⟨fun t h1 => ?_, by rw [hn]; exact Nat.lt_succ_of_lt inv.2⟩
      rw [ht] at h1
      rcases List.mem_append.1 h1 with h1 | h1
      · exact inv.1 t h1
      · rw [List.mem_singleton.1 h1]
        exact Nat.ne_of_gt inv.2
    · exact ⟨fun t h1 => inv.1 t (ht ▸ h1), by rw [hn]; exact inv.2⟩
  | broadcast m =>
    obtain ⟨hb, _⟩ := step_broadcast s m s' out h
    obtain ⟨_, ht, hn, _⟩ := broadcast_view s m s' hb
    exact ⟨fun t h1 => inv.1 t (ht ▸ h1), by rw [hn]; exact inv.2⟩
  | fire id0 =>
    obtain ⟨hs, _⟩ := step_fire s id0 s' out h
    subst hs
    obtain ⟨_, _, hn, ht, _⟩ := fire_view s id0
    exact ⟨fun t h1 => inv.1 t (ht t h1), by rw [hn]; exact inv.2⟩
  | recv r =>
    obtain ⟨hs, _⟩ := step_recv s r s' out h
    subst hs
    obtain ⟨_, _, ht, hn⟩ := recv_view s r
    exact ⟨fun t h1 => inv.1 t (ht ▸ h1), by rw [hn]; exact inv.2⟩

theorem fire_gone (id : Nat) (s : State) (h : TimerGone id s) : fire s id = (s, []) := by
  have hf : s.timers.find? (fun t => decide (t.id = id)) = none := by
    rw [List.find?_eq_none]
    intro t ht
    simpa using h.1 t ht
  simp only [fire, hf]

/-- Counterexample to C7 as stated: alice's only connection to room-1 closes and,
before the grace timer fires, a new connection of alice registers. In that third step
alice's number of connections in room-1 goes from 0 to 1 and no `user_joined` is
emitted. -/
theorem rejoin_in_grace_period_emits_no_user_joined :
    ∃ x ∈ exec State.init
        [Event.register alice1, Event.unregister alice1, Event.register alice2],
      userConns x.pre "alice" "room-1" = 0 ∧ userConns x.post "alice" "room-1" = 1 ∧
        joinedCount "alice" "room-1" x.out = 0 := by
  decide

/-- C7, as the code has it: along every sequence of steps from the empty registry, for
every user u and room R, a step emits exactly one `user_joined` for u to R when it
takes u's number of connections in R from 0 to 1 while no pending-leave timer is stored
for u, and none in every other case (none while the number stays at 1 or more, none
when the registration finds a pending leave); the number of `user_left` for u emitted
to R is at most the number of `Unregister` steps of a connection of u in R that left no
connection of u in R; and a pending timer that a registration of u finds stored emits
nothing when it is fired afterwards. -/
theorem presence_events_along_trace (es : List Event) (u R : String) :
    (∀ x ∈ exec State.init es,
      joinedCount u R x.out =
        if userConns x.pre u R = 0 ∧ userConns x.post u R = 1 ∧
            mapGet x.pre.pendingLeaves u = none
        then 1 else 0) ∧
    ((exec State.init es).map (fun x => leftCount u R x.out)).sum ≤
      (exec State.init es).countP (isLastClose u R) ∧
    (∀ (tr1 : List Transition) (x : Transition) (tr2 : List Transition) (c : Client)
        (t : Timer),
      exec State.init es = tr1 ++ x :: tr2 → x.ev = Event.register c → c.UserID = u →
      mapGet x.pre.pendingLeaves u = some t →
      ∀ y ∈ tr2, y.ev = Event.fire t.id → y.out = []) := by
  refine ⟨?_, ?_, ?_⟩
  · intro x hx
    have hstep := (exec_invariant (fun _ => True) (fun _ _ _ _ _ _ => trivial) es
      State.init trivial x hx).2
    exact joined_step x.pre x.ev x.post x.out hstep u R
  · have h := left_exec u R es State.init
    have h0 : armedFor u R State.init = 0 := rfl
    omega
  · intro tr1 x tr2 c t htr hev hcu hpend y hy hfire
    have hx : x ∈ exec State.init es := by
      rw [htr]
      exact List.mem_append_right _ (List.mem_cons_self _ _)
    have hinit : TimersBelow State.init :=
      ⟨fun u t h => by simp [State.init, mapGet] at h, fun t h => by simp [State.init] at h⟩
    obtain ⟨hbelow, hstep⟩ := exec_invariant TimersBelow timersBelow_step es State.init hinit x hx
    rw [hev] at hstep
    obtain ⟨hpost, _⟩ := step_register x.pre c x.post x.out hstep
    obtain ⟨hn, _, hstop⟩ := register_timers x.pre c
    have hgone : TimerGone t.id x.post := by
      rw [← hpost]
      exact ⟨fun z hz => hstop t (hcu ▸ hpend) z hz, by rw [hn]; exact hbelow.1 u t hpend⟩
    obtain ⟨es2, hes2⟩ := exec_split es State.init tr1 x tr2 htr
    rw [hes2] at hy
    obtain ⟨hgy, hsy⟩ := exec_invariant (TimerGone t.id) (timerGone_step t.id) es2 x.post hgone y hy
    rw [hfire] at hsy
    obtain ⟨_, hout⟩ := step_fire y.pre t.id y.post y.out hsy
    rw [← hout, fire_gone t.id y.pre hgy]

/-! ## Empty rooms: the steps that keep the membership map free of them -/

theorem mapSet_ne_nil {α β : Type} [DecidableEq α] (m : GoMap α β) (a : α) (b : β) :
    mapSet m a b ≠ [] := by
  cases m with
  | nil => simp [mapSet]
  | cons p m =>
    obtain ⟨k, v⟩ := p
    by_cases hk : k = a <;> simp [mapSet, hk]

theorem rooms_register (s : State) (c : Client) :
    (register s c).1.rooms =
      mapSet s.rooms c.RoomID (mapSet (clientsOf s c.RoomID) c.ConnID c) := by
  unfold register clientsOf
  cases mapGet s.pendingLeaves c.UserID <;> rfl

theorem roomsNonempty_step (s : State) (e : Event) (s' : State) (out : List Effect)
    (inv : RoomsNonempty s) (hnb : ∀ m, e ≠ Event.broadcast m)
    (h : step s e = some (s', out)) : RoomsNonempty s' := by
  intro R clients hR
  cases e with
  | register c =>
    obtain ⟨hs, _⟩ := step_register s c s' out h
    rw [← hs, rooms_register, mapGet_mapSet] at hR
    by_cases hc : c.RoomID = R
    · rw [if_pos hc] at hR
      cases hR
      exact mapSet_ne_nil _ _ _
    · rw [if_neg hc] at hR
      exact inv R clients hR
  | unregister c =>
    simp only [step] at h
    obtain ⟨rooms, chans, hrem, hcase⟩ := unregister_cases s c s' out h
    have hrooms : s'.rooms = rooms := by
      rcases hcase with ⟨_, hs, _⟩ | ⟨_, hs, _⟩ <;> rw [hs]
    rw [hrooms] at hR
    rw [unregisterRemove_eq] at hrem
    by_cases hst : mapGet (clientsOf s c.RoomID) c.ConnID = none
    · simp only [hst, if_true, Option.some.injEq, Prod.mk.injEq] at hrem
      rw [← hrem.1] at hR
      exact inv R clients hR
    · simp only [hst, if_false] at hrem
      by_cases ho : (chanAt s.chans c.Send).closed = true
      · simp [ho] at hrem
      · simp only [ho, Bool.false_eq_true, if_false, Option.some.injEq, Prod.mk.injEq] at hrem
        rw [← hrem.1] at hR
        by_cases hlen : (mapDelete (clientsOf s c.RoomID) c.ConnID).length = 0
        · rw [if_pos hlen, mapGet_mapDelete] at hR
          by_cases hc : c.RoomID = R
          · simp [hc] at hR
          · rw [if_neg hc] at hR
            exact inv R clients hR
        · rw [if_neg hlen, mapGet_mapSet] at hR
          by_cases hc : c.RoomID = R
          · rw [if_pos hc] at hR
            cases hR
            exact fun hnil => hlen (by rw [hnil]; rfl)
          · rw [if_neg hc] at hR
            exact inv R clients hR
  | broadcast m => exact absurd rfl (hnb m)
  | fire id =>
    obtain ⟨hs, _⟩ := step_fire s id s' out h
    rw [← hs, (fire_view s id).1] at hR
    exact inv R clients hR
  | recv r =>
    obtain ⟨hs, _⟩ := step_recv s r s' out h
    rw [← hs, (recv_view s r).1] at hR
    exact inv R clients hR

/-- Along a run from the empty registry that processes no broadcast request (register,
unregister, timer and queue-reading steps only) every room id that is a key of the
membership map has at least one connection stored under it: the unregister case
removes a room in the step that empties it. -/
theorem roomsNonempty_without_broadcast (es : List Event) :
    ∀ (s s' : State), RoomsNonempty s → (∀ e ∈ es, ∀ m, e ≠ Event.broadcast m) →
      run s es = some s' → RoomsNonempty s' := by
  induction es with
  | nil =>
    intro s s' inv _ h
    simp only [run, Option.some.injEq] at h
    exact h ▸ inv
  | cons e es ih =>
    intro s s' inv hnb h
    cases hs : step s e with
    | none => simp [run, hs] at h
    | some r =>
      obtain ⟨s1, out⟩ := r
      simp only [run, hs] at h
      exact ih s1 s'
        (roomsNonempty_step s e s1 out inv (hnb e (List.mem_cons_self _ _)) hs)
        (fun e' he' => hnb e' (List.mem_cons_of_mem _ he')) h

/-! ## Unregister of a connection that is not stored; superseded timers -/

theorem unregister_absent (s : State) (c : Client)
    (habs : mapGet (clientsOf s c.RoomID) c.ConnID = none) :
    ∃ s' effs, unregister s c = some (s', effs) ∧ s'.rooms = s.rooms ∧ s'.chans = s.chans := by
  have hrem : unregisterRemove s c = some (s.rooms, s.chans) := by
    rw [unregisterRemove_eq, if_pos habs]
  have hopen : (∃ clients, mapGet s.rooms c.RoomID = some clients ∧
      mapGet clients c.ConnID ≠ none) → (chanAt s.chans c.Send).closed = false := by
    rintro ⟨clients, hroom, hne⟩
    exfalso
    apply hne
    simpa [clientsOf, hroom] using habs
  obtain ⟨s', effs, hun⟩ := unregister_total s c hopen
  obtain ⟨rooms, chans, hr, hcase⟩ := unregister_cases s c s' effs hun
  rw [hrem] at hr
  simp only [Option.some.injEq, Prod.mk.injEq] at hr
  refine ⟨s', effs, hun, ?_, ?_⟩
  · rcases hcase with ⟨_, hs, _⟩ | ⟨_, hs, _⟩ <;> rw [hs] <;> exact hr.1.symm
  · rcases hcase with ⟨_, hs, _⟩ | ⟨_, hs, _⟩ <;> rw [hs] <;> exact hr.2.symm

theorem unregister_then_absent (s : State) (c : Client) (s1 : State) (e1 : List Effect)
    (h : unregister s c = some (s1, e1)) :
    mapGet (clientsOf s1 c.RoomID) c.ConnID = none := by
  obtain ⟨rooms, chans, hr, hcase⟩ := unregister_cases s c s1 e1 h
  have hgone := unregisterRemove_gone s c rooms chans hr
  have hrooms : s1.rooms = rooms := by
    rcases hcase with ⟨_, hs, _⟩ | ⟨_, hs, _⟩ <;> rw [hs]
  unfold clientsOf
  rw [hrooms]
  cases hroom : mapGet rooms c.RoomID with
  | none => rfl
  | some clients => exact hgone clients hroom

/-- C17: for every registry state and every connection c with no entry under its
connection id in its room (never registered, already unregistered, or already dropped
by a broadcast), processing `Unregister(c)` does not panic, leaves the membership map
as it was and leaves every queue, c's included, as it was; and whenever a first
`Unregister(c)` is processed, a second one right after it leaves the membership map and
the queues as the first one left them. -/
theorem unregister_twice_same_membership (s : State) (c : Client) :
    (mapGet (clientsOf s c.RoomID) c.ConnID = none →
      ∃ s' effs, unregister s c = some (s', effs) ∧
        s'.rooms = s.rooms ∧ s'.chans = s.chans) ∧
    (∀ s1 e1, unregister s c = some (s1, e1) →
      ∃ s2 e2, unregister s1 c = some (s2, e2) ∧
        s2.rooms = s1.rooms ∧ s2.chans = s1.chans) :=
  ⟨unregister_absent s c,
   fun s1 e1 h => unregister_absent s1 c (unregister_then_absent s c s1 e1 h)⟩

/-- C15, the code at the failing input: alice is connected to room-1 and to room-2 and
both connections close, the second leave replacing the timer stored by the first. When
the earlier, superseded timer (identity 0) fires it emits `user_left` for alice to
room-1 and removes the entry the later leave stored; when the later timer (identity 1)
fires afterwards it emits nothing, so the departure from room-2 is never announced. -/
theorem superseded_timer_still_announces :
    run State.init
        [Event.register alice1, Event.register alice3,
         Event.unregister alice1, Event.unregister alice3] =
      some { rooms := []
             pendingLeaves := [("alice", { id := 1, client := alice3 })]
             chans := [(1, { buf := [], cap := 256, closed := true }),
                       (4, { buf := [], cap := 256, closed := true })]
             timers := [{ id := 0, client := alice1 }, { id := 1, client := alice3 }]
             nextTimer := 2 } ∧
    fire { rooms := []
           pendingLeaves := [("alice", { id := 1, client := alice3 })]
           chans := [(1, { buf := [], cap := 256, closed := true }),
                     (4, { buf := [], cap := 256, closed := true })]
           timers := [{ id := 0, client := alice1 }, { id := 1, client := alice3 }]
           nextTimer := 2 } 0 =
      ({ rooms := []
         pendingLeaves := []
         chans := [(1, { buf := [], cap := 256, closed := true }),
                   (4, { buf := [], cap := 256, closed := true })]
         timers := [{ id := 1, client := alice3 }]
         nextTimer := 2 },
       [Effect.submit { RoomID := "room-1",
                        Message := { type := "user_left",
                                     payload := Payload.user "alice" "Alice" },
                        Exclude := "" },
        Effect.spawnUserList "room-1"]) ∧
    (fire { rooms := []
            pendingLeaves := []
            chans := [(1, { buf := [], cap := 256, closed := true }),
                      (4, { buf := [], cap := 256, closed := true })]
            timers := [{ id := 1, client := alice3 }]
            nextTimer := 2 } 1).2 = [] := by
  refine ⟨by decide, by decide, by decide⟩

/-! ## Stored connections have open queues -/

theorem broadcastLoop_sublist (msg : BroadcastMessage) (rest : List (String × Client)) :
    ∀ (clients : GoMap String Client) (chans : GoMap Nat Chan)
      (clients' : GoMap String Client) (chans' : GoMap Nat Chan),
      broadcastLoop msg rest clients chans = some (clients', chans') →
      clients'.Sublist clients := by
  induction rest with
  | nil =>
    intro clients chans clients' chans' h
    simp only [broadcastLoop, Option.some.injEq, Prod.mk.injEq] at h
    rw [h.1]
  | cons hd rest ih =>
    obtain ⟨k, c⟩ := hd
    intro clients chans clients' chans' h
    unfold broadcastLoop at h
    by_cases hex : c.UserID ≠ msg.Exclude
    · rw [if_pos hex] at h
      cases hts : trySend chans c.Send msg.Message with
      | sent chans1 =>
        rw [hts] at h
        exact ih _ _ _ _ h
      | full =>
        rw [hts] at h
        cases hcl : closeChan chans c.Send with
        | none =>
          rw [hcl] at h
          cases h
        | some chans1 =>
          rw [hcl] at h
          exact (ih _ _ _ _ h).trans (List.filter_sublist _)
      | panicked =>
        rw [hts] at h
        cases h
    · rw [if_neg hex] at h
      exact ih _ _ _ _ h

theorem broadcast_sublist (s : State) (msg : BroadcastMessage) (s' : State)
    (h : broadcast s msg = some s') (R : String) :
    (clientsOf s' R).Sublist (clientsOf s R) := by
  cases hroom : mapGet s.rooms msg.RoomID with
  | none =>
    simp only [broadcast, hroom, Option.some.injEq] at h
    subst h
    exact List.Sublist.refl _
  | some clients =>
    cases hloop : broadcastLoop msg clients clients s.chans with
    | none => simp [broadcast, hroom, hloop] at h
    | some r =>
      obtain ⟨clients', chans'⟩ := r
      simp only [broadcast, hroom, hloop, Option.some.injEq] at h
      subst h
      simp only [clientsOf, mapGet_mapSet]
      by_cases hR : msg.RoomID = R
      · subst hR
        simp only [if_true, Option.getD_some, hroom]
        exact broadcastLoop_sublist msg clients clients s.chans clients' chans' hloop
      · simp [hR]

theorem recv_closed (s : State) (r r' : Nat) :
    (chanAt (recv s r).chans r').closed = (chanAt s.chans r').closed := by
  unfold recv
  cases hb : (chanAt s.chans r).buf with
  | nil => rfl
  | cons m rest =>
    simp only [chanAt_mapSet]
    by_cases hr : r = r'
    · subst hr
      simp
    · simp [hr]

theorem openInv_init : OpenInv [] State.init where
  key_eq := by simp [clientsOf, State.init, mapGet]
  stored_seen := by simp [members, clientsOf, State.init, mapGet]
  room_eq := by simp [members, clientsOf, State.init, mapGet]
  unique := by simp
  sends_nodup := by simp [members, clientsOf, State.init, mapGet]
  stored_open := by simp [members, clientsOf, State.init, mapGet]
  closed_seen := by simp [chanAt, State.init, mapGet, newChan]

theorem openInv_register (seen : List Client) (s : State) (c : Client)
    (inv : OpenInv seen s)
    (hfresh : ∀ d ∈ seen, d.ConnID ≠ c.ConnID ∧ d.Send ≠ c.Send) :
    OpenInv (c :: seen) (register s c).1 := by
  have habsent : mapGet (clientsOf s c.RoomID) c.ConnID = none := by
    rw [mapGet_eq_none_iff]
    intro p hp hk
    have hm : p.2 ∈ members s c.RoomID := List.mem_map.2 ⟨p, hp, rfl⟩
    apply (hfresh p.2 (inv.stored_seen _ _ hm)).1
    rw [← inv.key_eq _ p hp, hk]
  have hcl : ∀ R, clientsOf (register s c).1 R =
      if c.RoomID = R then clientsOf s R ++ [(c.ConnID, c)] else clientsOf s R := by
    intro R
    rw [clientsOf_register]
    by_cases hR : c.RoomID = R
    · subst hR
      rw [if_pos rfl, if_pos rfl, mapSet_of_absent _ _ _ habsent]
    · rw [if_neg hR, if_neg hR]
  have hmem : ∀ R, members (register s c).1 R =
      if c.RoomID = R then members s R ++ [c] else members s R := by
    intro R
    unfold members
    rw [hcl R]
    by_cases hR : c.RoomID = R <;> simp [hR]
  have hcopen : (chanAt s.chans c.Send).closed = false := by
    rw [← Bool.not_eq_true]
    intro hc
    obtain ⟨d, hd, hdc⟩ := inv.closed_seen _ hc
    exact (hfresh d hd).2 hdc
  refine ⟨?_, ?_, ?_, ?_, ?_, ?_, ?_⟩
  · intro R p hp
    rw [hcl R] at hp
    by_cases hR : c.RoomID = R
    · rw [if_pos hR] at hp
      rcases List.mem_append.1 hp with hp | hp
      · exact inv.key_eq R p hp
      · rw [List.mem_singleton.1 hp]
    · rw [if_neg hR] at hp
      exact inv.key_eq R p hp
  · intro R d hd
    rw [hmem R] at hd
    by_cases hR : c.RoomID = R
    · rw [if_pos hR] at hd
      rcases List.mem_append.1 hd with hd | hd
      · exact List.mem_cons_of_mem _ (inv.stored_seen R d hd)
      · rw [List.mem_singleton.1 hd]
        exact List.mem_cons_self _ _
    · rw [if_neg hR] at hd
      exact List.mem_cons_of_mem _ (inv.stored_seen R d hd)
  · intro R d hd
    rw [hmem R] at hd
    by_cases hR : c.RoomID = R
    · rw [if_pos hR] at hd
      rcases List.mem_append.1 hd with hd | hd
      · exact inv.room_eq R d hd
      · rw [List.mem_singleton.1 hd]
        exact hR
    · rw [if_neg hR] at hd
      exact inv.room_eq R d hd
  · intro a ha b hb hab
    rcases List.mem_cons.1 ha with hac | ha <;> rcases List.mem_cons.1 hb with hbc | hb
    · rw [hac, hbc]
    · exfalso
      rw [hac] at hab
      rcases hab with h | h
      · exact (hfresh b hb).1 h.symm
      · exact (hfresh b hb).2 h.symm
    · exfalso
      rw [hbc] at hab
      rcases hab with h | h
      · exact (hfresh a ha).1 h
      · exact (hfresh a ha).2 h
    · exact inv.unique a ha b hb hab
  · intro R
    rw [hmem R]
    by_cases hR : c.RoomID = R
    · rw [if_pos hR, List.map_append, List.nodup_append]
      refine ⟨inv.sends_nodup R, List.nodup_singleton _, ?_⟩
      intro r hr hr'
      obtain ⟨d, hd, hdr⟩ := List.mem_map.1 hr
      simp only [List.map_cons, List.map_nil, List.mem_singleton] at hr'
      exact (hfresh d (inv.stored_seen R d hd)).2 (hdr.trans hr')
    · rw [if_neg hR]
      exact inv.sends_nodup R
  · intro R d hd
    rw [chans_register]
    rw [hmem R] at hd
    by_cases hR : c.RoomID = R
    · rw [if_pos hR] at hd
      rcases List.mem_append.1 hd with hd | hd
      · exact inv.stored_open R d hd
      · rw [List.mem_singleton.1 hd]
        exact hcopen
    · rw [if_neg hR] at hd
      exact inv.stored_open R d hd
  · intro r hr
    rw [chans_register] at hr
    obtain ⟨d, hd, hdr⟩ := inv.closed_seen r hr
    exact ⟨d, List.mem_cons_of_mem _ hd, hdr⟩

theorem members_sublist_of (s s' : State) (R : String)
    (h : (clientsOf s' R).Sublist (clientsOf s R)) :
    ((members s' R).map Client.Send).Sublist ((members s R).map Client.Send) := by
  unfold members
  exact (h.map Prod.snd).map Client.Send

theorem openInv_unregister (seen : List Client) (s : State) (c : Client)
    (inv : OpenInv seen s) (hseen : c ∈ seen) :
    ∃ s' effs, unregister s c = some (s', effs) ∧ OpenInv seen s' := by
  have hentry : ∀ p ∈ clientsOf s c.RoomID, p.1 = c.ConnID → p.2 = c := by
    intro p hp hk
    have hm : p.2 ∈ members s c.RoomID := List.mem_map.2 ⟨p, hp, rfl⟩
    apply inv.unique _ (inv.stored_seen _ _ hm) _ hseen
    left
    rw [← inv.key_eq _ p hp, hk]
  have hstored : mapGet (clientsOf s c.RoomID) c.ConnID ≠ none → c ∈ members s c.RoomID := by
    intro hne
    obtain ⟨x, hx⟩ := Option.ne_none_iff_exists'.1 hne
    have hmem := mapGet_mem _ _ _ hx
    have hxc : x = c := hentry _ hmem rfl
    exact List.mem_map.2 ⟨_, hmem, hxc⟩
  have hopen : (∃ clients, mapGet s.rooms c.RoomID = some clients ∧
      mapGet clients c.ConnID ≠ none) → (chanAt s.chans c.Send).closed = false := by
    rintro ⟨clients, hroom, hne⟩
    have hne' : mapGet (clientsOf s c.RoomID) c.ConnID ≠ none := by
      simpa [clientsOf, hroom] using hne
    exact inv.stored_open _ c (hstored hne')
  obtain ⟨s', effs, hun⟩ := unregister_total s c hopen
  obtain ⟨hcl, hch0, hch1⟩ := unregister_view s c s' effs hun
  have hsub : ∀ R, (clientsOf s' R).Sublist (clientsOf s R) := by
    intro R
    rw [hcl R]
    by_cases hR : c.RoomID = R
    · rw [if_pos hR]
      exact List.filter_sublist _
    · rw [if_neg hR]
  have hmsub : ∀ R d, d ∈ members s' R → d ∈ members s R :=
    fun R d hd => members_unregister s c s' effs hun R d hd
  have hgone : ∀ R, c ∉ members s' R := by
    intro R hc
    have hR : c.RoomID = R := inv.room_eq R c (hmsub R c hc)
    subst hR
    obtain ⟨p, hp, hpc⟩ := List.mem_map.1 hc
    rw [hcl, if_pos rfl] at hp
    have hp' := (mem_mapDelete _ _ _).1 hp
    apply hp'.2
    rw [inv.key_eq _ p hp'.1, hpc]
  refine ⟨s', effs, hun, ?_, ?_, ?_, ?_, ?_, ?_, ?_⟩
  · intro R p hp
    exact inv.key_eq R p ((hsub R).subset hp)
  · intro R d hd
    exact inv.stored_seen R d (hmsub R d hd)
  · intro R d hd
    exact inv.room_eq R d (hmsub R d hd)
  · exact inv.unique
  · intro R
    exact (inv.sends_nodup R).sublist (members_sublist_of s s' R (hsub R))
  · intro R d hd
    by_cases hst : mapGet (clientsOf s c.RoomID) c.ConnID = none
    · rw [hch0 hst]
      exact inv.stored_open R d (hmsub R d hd)
    · rw [(hch1 hst).2, chanAt_mapSet]
      have hne : c.Send ≠ d.Send := by
        intro heq
        have hdc : d = c :=
          inv.unique d (inv.stored_seen R d (hmsub R d hd)) c hseen (Or.inr heq.symm)
        exact hgone R (hdc ▸ hd)
      rw [if_neg hne]
      exact inv.stored_open R d (hmsub R d hd)
  · intro r hr
    by_cases hst : mapGet (clientsOf s c.RoomID) c.ConnID = none
    · rw [hch0 hst] at hr
      exact inv.closed_seen r hr
    · rw [(hch1 hst).2, chanAt_mapSet] at hr
      by_cases hrc : c.Send = r
      · exact ⟨c, hseen, hrc⟩
      · rw [if_neg hrc] at hr
        exact inv.closed_seen r hr

theorem openInv_broadcast (seen : List Client) (s : State) (m : BroadcastMessage)
    (inv : OpenInv seen s) :
    ∃ s', broadcast s m = some s' ∧ OpenInv seen s' := by
  obtain ⟨s', hrun, _, _, _, h1, h2, _, h4⟩ :=
    broadcast_spec s m (inv.sends_nodup _) (inv.stored_open _)
  have hsub : ∀ R, (clientsOf s' R).Sublist (clientsOf s R) := broadcast_sublist s m s' hrun
  have hmsub : ∀ R d, d ∈ members s' R → d ∈ members s R :=
    fun R d hd => members_broadcast s m s' hrun R d hd
  refine ⟨s', hrun, ?_, ?_, ?_, ?_, ?_, ?_, ?_⟩
  · intro R p hp
    exact inv.key_eq R p ((hsub R).subset hp)
  · intro R d hd
    exact inv.stored_seen R d (hmsub R d hd)
  · intro R d hd
    exact inv.room_eq R d (hmsub R d hd)
  · exact inv.unique
  · intro R
    exact (inv.sends_nodup R).sublist (members_sublist_of s s' R (hsub R))
  · intro R d hd
    have hd0 := hmsub R d hd
    by_cases htouch : ∃ e ∈ members s m.RoomID, e.UserID ≠ m.Exclude ∧ e.Send = d.Send
    · obtain ⟨e, he, hex, hes⟩ := htouch
      have hed : e = d :=
        inv.unique e (inv.stored_seen _ e he) d (inv.stored_seen R d hd0) (Or.inr hes)
      subst hed
      have hR : m.RoomID = R := (inv.room_eq _ e he).symm.trans (inv.room_eq R e hd0)
      subst hR
      rw [h1 e he hex]
      by_cases hlt : (chanAt s.chans e.Send).buf.length < (chanAt s.chans e.Send).cap
      · simp [afterSend, hlt, inv.stored_open _ e he]
      · exfalso
        obtain ⟨q, hq, hqe⟩ := List.mem_map.1 hd
        have hq0 : q ∈ clientsOf s m.RoomID := (hsub _).subset hq
        exact h4 q hq0 (by rw [hqe]; exact hex)
          (by rw [hqe]; simp [Chan.isFull, hlt]) q hq rfl
    · rw [h2 d.Send (fun e he hex hes => htouch ⟨e, he, hex, hes⟩)]
      exact inv.stored_open R d hd0
  · intro r hr
    by_cases htouch : ∃ e ∈ members s m.RoomID, e.UserID ≠ m.Exclude ∧ e.Send = r
    · obtain ⟨e, he, _, hes⟩ := htouch
      exact ⟨e, inv.stored_seen _ e he, hes⟩
    · rw [h2 r (fun e he hex hes => htouch ⟨e, he, hex, hes⟩)] at hr
      exact inv.closed_seen r hr

theorem openInv_of_same (seen : List Client) (s s' : State) (inv : OpenInv seen s)
    (hrooms : s'.rooms = s.rooms)
    (hclosed : ∀ r, (chanAt s'.chans r).closed = (chanAt s.chans r).closed) :
    OpenInv seen s' := by
  have hc : ∀ R, clientsOf s' R = clientsOf s R := fun R => by
    unfold clientsOf
    rw [hrooms]
  have hm : ∀ R, members s' R = members s R := fun R => by
    unfold members
    rw [hc R]
  refine ⟨?_, ?_, ?_, inv.unique, ?_, ?_, ?_⟩
  · intro R p hp
    exact inv.key_eq R p (hc R ▸ hp)
  · intro R d hd
    exact inv.stored_seen R d (hm R ▸ hd)
  · intro R d hd
    exact inv.room_eq R d (hm R ▸ hd)
  · intro R
    rw [hm R]
    exact inv.sends_nodup R
  · intro R d hd
    rw [hclosed]
    exact inv.stored_open R d (hm R ▸ hd)
  · intro r hr
    rw [hclosed] at hr
    exact inv.closed_seen r hr

theorem openInv_run (es : List Event) :
    ∀ (seen : List Client) (s : State),
      OpenInv seen s → sessionFrom seen es = true →
      ∃ s' seen', run s es = some s' ∧ OpenInv seen' s' ∧
        (∀ c, c ∈ seen → c ∈ seen') ∧ (∀ c, Event.register c ∈ es → c ∈ seen') := by
  induction es with
  | nil =>
    intro seen s inv _
    exact ⟨s, seen, rfl, inv, fun _ h => h, fun _ h => by cases h⟩
  | cons e es ih =>
    intro seen s inv hwf
    cases e with
    | register c =>
      simp only [sessionFrom, Bool.and_eq_true, List.all_eq_true, decide_eq_true_eq] at hwf
      have inv' := openInv_register seen s c inv hwf.1
      obtain ⟨s', seen', hrun, hinv, hs1, hs2⟩ := ih _ _ inv' hwf.2
      refine ⟨s', seen', ?_, hinv, fun d hd => hs1 d (List.mem_cons_of_mem _ hd), ?_⟩
      · simp only [run, step]
        exact hrun
      · intro d hd
        rcases List.mem_cons.1 hd with hd | hd
        · cases hd
          exact hs1 _ (List.mem_cons_self _ _)
        · exact hs2 d hd
    | unregister c =>
      simp only [sessionFrom, Bool.and_eq_true, decide_eq_true_eq] at hwf
      obtain ⟨s1, effs, hun, inv'⟩ := openInv_unregister seen s c inv hwf.1
      obtain ⟨s', seen', hrun, hinv, hs1, hs2⟩ := ih _ _ inv' hwf.2
      refine ⟨s', seen', ?_, hinv, hs1, ?_⟩
      · simp only [run, step, hun]
        exact hrun
      · intro d hd
        rcases List.mem_cons.1 hd with hd | hd
        · cases hd
        · exact hs2 d hd
    | broadcast m =>
      simp only [sessionFrom] at hwf
      obtain ⟨s1, hb, inv'⟩ := openInv_broadcast seen s m inv
      obtain ⟨s', seen', hrun, hinv, hs1, hs2⟩ := ih _ _ inv' hwf
      refine ⟨s', seen', ?_, hinv, hs1, ?_⟩
      · simp only [run, step, hb, Option.map_some']
        exact hrun
      · intro d hd
        rcases List.mem_cons.1 hd with hd | hd
        · cases hd
        · exact hs2 d hd
    | fire id =>
      simp only [sessionFrom] at hwf
      have inv' : OpenInv seen (fire s id).1 :=
        openInv_of_same seen s _ inv (fire_view s id).1
          (fun r => by rw [(fire_view s id).2.1])
      obtain ⟨s', seen', hrun, hinv, hs1, hs2⟩ := ih _ _ inv' hwf
      refine ⟨s', seen', ?_, hinv, hs1, ?_⟩
      · simp only [run, step]
        exact hrun
      · intro d hd
        rcases List.mem_cons.1 hd with hd | hd
        · cases hd
        · exact hs2 d hd
    | recv r =>
      simp only [sessionFrom] at hwf
      have inv' : OpenInv seen (recv s r) :=
        openInv_of_same seen s _ inv (recv_view s r).1 (fun r' => recv_closed s r r')
      obtain ⟨s', seen', hrun, hinv, hs1, hs2⟩ := ih _ _ inv' hwf
      refine ⟨s', seen', ?_, hinv, hs1, ?_⟩
      · simp only [run, step]
        exact hrun
      · intro d hd
        rcases List.mem_cons.1 hd with hd | hd
        · cases hd
        · exact hs2 d hd

/-- C16: along every sequence of register, unregister, broadcast, timer and
queue-reading steps from the empty registry in which each registered connection brings
a connection id and a queue of its own (and is unregistered only after it was
registered), no step panics, so no queue is closed twice and no broadcast sends on a
closed queue; in the state reached every connection stored in a room has an open
outbound queue, every further broadcast request is processed without a panic, and so is
the `Unregister` of every registered connection. -/
theorem stored_connections_have_open_queues (es : List Event)
    (hsess : session es = true) :
    ∃ s, run State.init es = some s ∧
      (∀ R, ∀ c ∈ members s R, (chanAt s.chans c.Send).closed = false) ∧
      (∀ m, ∃ s', broadcast s m = some s') ∧
      (∀ c, Event.register c ∈ es → ∃ s' effs, unregister s c = some (s', effs)) := by
  obtain ⟨s, seen, hrun, inv, _, hreg⟩ := openInv_run es [] State.init openInv_init hsess
  refine ⟨s, hrun, inv.stored_open, fun m => ?_, fun c hc => ?_⟩
  · obtain ⟨s', hb, _⟩ := openInv_broadcast seen s m inv
    exact ⟨s', hb⟩
  · obtain ⟨s', effs, hun, _⟩ := openInv_unregister seen s c inv (hreg c hc)
    exact ⟨s', effs, hun⟩

/-- Instance of C16: `alice1` and `bob1` register, a message is broadcast to their
room, `alice1` unregisters and its grace timer fires. -/
theorem stored_connections_have_open_queues_witness :
    session [Event.register alice1, Event.register bob1, Event.broadcast pingAll,
             Event.unregister alice1, Event.fire 0] = true ∧
    ∃ s, run State.init
          [Event.register alice1, Event.register bob1, Event.broadcast pingAll,
           Event.unregister alice1, Event.fire 0] = some s ∧
      (∀ R, ∀ c ∈ members s R, (chanAt s.chans c.Send).closed = false) ∧
      (∀ m, ∃ s', broadcast s m = some s') ∧
      (∀ c, Event.register c ∈
            [Event.register alice1, Event.register bob1, Event.broadcast pingAll,
             Event.unregister alice1, Event.fire 0] →
          ∃ s' effs, unregister s c = some (s', effs)) :=
  ⟨by decide, stored_connections_have_open_queues _ (by decide)⟩

/-! ## The dispatcher -/

theorem broadcast_recipients (s : State) (b : BroadcastMessage)
    (hsend : ((members s b.RoomID).map Client.Send).Nodup)
    (hopen : ∀ d ∈ members s b.RoomID, (chanAt s.chans d.Send).closed = false) :
    ∃ s', broadcast s b = some s' ∧
      (∀ d ∈ members s b.RoomID, d.UserID = b.Exclude →
        chanAt s'.chans d.Send = chanAt s.chans d.Send) ∧
      (∀ d ∈ members s b.RoomID, d.UserID ≠ b.Exclude →
        chanAt s'.chans d.Send = afterSend b.Message (chanAt s.chans d.Send)) := by
  obtain ⟨s', hrun, _, _, _, h1, h2, _, _⟩ := broadcast_spec s b hsend hopen
  refine ⟨s', hrun, ?_, h1⟩
  intro d hd hdx
  apply h2
  intro e he hex hed
  have : e = d := List.inj_on_of_nodup_map hsend he hd hed
  exact hex (this ▸ hdx)

theorem requests_handleCodeChange (codec : Codec) (amb : Ambient) (c : Client)
    (msg : WSMessage) :
    requests (handleCodeChange codec amb c msg) =
      [{ RoomID := c.RoomID, Message := msg, Exclude := c.UserID }] := by
  unfold handleCodeChange
  cases amb.dbErr <;> simp [requests, BroadcastToRoom]

theorem requests_handleCursor (c : Client) (msg : WSMessage) :
    requests (handleCursor c msg) =
      [{ RoomID := c.RoomID, Message := msg, Exclude := c.UserID }] := by
  simp [handleCursor, requests, BroadcastToRoom]

theorem requests_handleChat (codec : Codec) (amb : Ambient) (c : Client) (msg : WSMessage) :
    requests (handleChat codec amb c msg) =
      [{ RoomID := c.RoomID
         Message :=
           { type := "chat"
             payload := Payload.message
               { RoomID := c.RoomID
                 MessageID := amb.newID
                 UserID := c.UserID
                 Username := c.Username
                 Text := (codec.chat msg.payload).Text
                 Timestamp := amb.now } }
         Exclude := "" }] := by
  simp [handleChat, requests, BroadcastToRoom]

theorem handleMessage_code_change (codec : Codec) (amb : Ambient) (c : Client)
    (msg : WSMessage) (h : msg.type = "code_change") :
    handleMessage codec amb c msg = handleCodeChange codec amb c msg := by
  simp [handleMessage, h]

theorem handleMessage_chat (codec : Codec) (amb : Ambient) (c : Client)
    (msg : WSMessage) (h : msg.type = "chat") :
    handleMessage codec amb c msg = handleChat codec amb c msg := by
  simp [handleMessage, h]

theorem handleMessage_cursor (codec : Codec) (amb : Ambient) (c : Client)
    (msg : WSMessage) (h : msg.type = "cursor") :
    handleMessage codec amb c msg = handleCursor c msg := by
  simp [handleMessage, h]

/-- C11: for every connection c and every inbound envelope of type `code_change` or
`cursor`, whatever its payload carries and however it decodes, `handleMessage` submits
exactly one broadcast request: its room is c's room id, its excluded user id is c's
user id and its message is the received envelope. Processed in a state where the
members of c's room have distinct, open queues, that request leaves the queue of every
member with c's user id as it was and attempts the send on every other member of the
room (the envelope is appended when the queue has room; a full queue is closed). -/
theorem code_change_and_cursor_rebroadcast (codec : Codec) (amb : Ambient) (c : Client)
    (msg : WSMessage) (htype : msg.type = "code_change" ∨ msg.type = "cursor") :
    requests (handleMessage codec amb c msg) =
      [{ RoomID := c.RoomID, Message := msg, Exclude := c.UserID }] ∧
    ∀ s : State,
      ((members s c.RoomID).map Client.Send).Nodup →
      (∀ d ∈ members s c.RoomID, (chanAt s.chans d.Send).closed = false) →
      ∃ s', broadcast s { RoomID := c.RoomID, Message := msg, Exclude := c.UserID } = some s' ∧
        (∀ d ∈ members s c.RoomID, d.UserID = c.UserID →
          chanAt s'.chans d.Send = chanAt s.chans d.Send) ∧
        (∀ d ∈ members s c.RoomID, d.UserID ≠ c.UserID →
          chanAt s'.chans d.Send = afterSend msg (chanAt s.chans d.Send)) := by
  constructor
  · rcases htype with h | h
    · rw [handleMessage_code_change codec amb c msg h, requests_handleCodeChange]
    · rw [handleMessage_cursor codec amb c msg h, requests_handleCursor]
  · intro s hsend hopen
    exact broadcast_recipients s { RoomID := c.RoomID, Message := msg, Exclude := c.UserID }
      hsend hopen

/-- Instance of C11: `alice1` sends a `code_change` envelope whose payload decodes to
another room and another user. -/
theorem code_change_and_cursor_rebroadcast_witness :
    (codeMsg.type = "code_change" ∨ codeMsg.type = "cursor") ∧
    requests (handleMessage sampleCodec sampleAmbient alice1 codeMsg) =
      [{ RoomID := alice1.RoomID, Message := codeMsg, Exclude := alice1.UserID }] :=
  ⟨by decide,
   (code_change_and_cursor_rebroadcast sampleCodec sampleAmbient alice1 codeMsg
     (by decide)).1⟩

/-- C12: for every connection c and every inbound envelope of type `chat`,
`handleMessage` submits exactly one broadcast request, to c's room with the empty
excluded user id; its envelope has type `chat` and a payload built by the server whose
room id, user id and username are c's, whose text is the text decoded from the client
payload, and whose message id and timestamp are the generated ones. Two chat envelopes
that decode to the same text give the same request, whatever user id, username and
timestamp they carry. Processed in a state where the members of c's room have distinct,
open queues, the request attempts the send on every member of the room with a non-empty
user id, the sender's own connections included. -/
theorem chat_broadcast_server_built (codec : Codec) (amb : Ambient) (c : Client)
    (msg : WSMessage) (htype : msg.type = "chat") :
    requests (handleMessage codec amb c msg) =
      [{ RoomID := c.RoomID
         Message :=
           { type := "chat"
             payload := Payload.message
               { RoomID := c.RoomID
                 MessageID := amb.newID
                 UserID := c.UserID
                 Username := c.Username
                 Text := (codec.chat msg.payload).Text
                 Timestamp := amb.now } }
         Exclude := "" }] ∧
    (∀ msg' : WSMessage, msg'.type = "chat" →
      (codec.chat msg'.payload).Text = (codec.chat msg.payload).Text →
      requests (handleMessage codec amb c msg') = requests (handleMessage codec amb c msg)) ∧
    ∀ (s : State) (b : BroadcastMessage), b ∈ requests (handleMessage codec amb c msg) →
      ((members s c.RoomID).map Client.Send).Nodup →
      (∀ d ∈ members s c.RoomID, (chanAt s.chans d.Send).closed = false) →
      ∃ s', broadcast s b = some s' ∧
        ∀ d ∈ members s c.RoomID, d.UserID ≠ "" →
          chanAt s'.chans d.Send = afterSend b.Message (chanAt s.chans d.Send) := by
  have hreq := requests_handleChat codec amb c msg
  rw [← handleMessage_chat codec amb c msg htype] at hreq
  refine ⟨hreq, ?_, ?_⟩
  · intro msg' htype' htext
    rw [hreq, handleMessage_chat codec amb c msg' htype', requests_handleChat, htext]
  · intro s b hb hsend hopen
    rw [hreq, List.mem_singleton] at hb
    have hR : b.RoomID = c.RoomID := by rw [hb]
    have hE : b.Exclude = "" := by rw [hb]
    obtain ⟨s', hrun, _, h2⟩ :=
      broadcast_recipients s b (by rw [hR]; exact hsend) (by rw [hR]; exact hopen)
    exact ⟨s', hrun, fun d hd hne => h2 d (by rw [hR]; exact hd) (by rw [hE]; exact hne)⟩

/-- Instance of C12: `alice1` sends a chat envelope whose payload decodes to the text
"hi" under another user's name. -/
theorem chat_broadcast_server_built_witness :
    chatMsg.type = "chat" ∧
    requests (handleMessage sampleCodec sampleAmbient alice1 chatMsg) =
      [{ RoomID := "room-1"
         Message :=
           { type := "chat"
             payload := Payload.message
               { RoomID := "room-1"
                 MessageID := "msg-1"
                 UserID := "alice"
                 Username := "Alice"
                 Text := "hi"
                 Timestamp := 1000 } }
         Exclude := "" }] :=
  ⟨by decide,
   (chat_broadcast_server_built sampleCodec sampleAmbient alice1 chatMsg (by decide)).1⟩

/-- C13: for every connection c and every `code_change` or `chat` envelope, the
broadcast requests submitted by `handleMessage` when the persistence call returns an
error are the ones submitted when it succeeds (same room, same excluded user id and,
for the same generated id and timestamp, same message), and there is exactly one: a
persistence failure neither suppresses nor alters the broadcast. -/
theorem persistence_failure_keeps_broadcast (codec : Codec) (amb : Ambient) (c : Client)
    (msg : WSMessage) (err : String)
    (htype : msg.type = "code_change" ∨ msg.type = "chat") :
    requests (handleMessage codec { amb with dbErr := some err } c msg) =
      requests (handleMessage codec { amb with dbErr := none } c msg) ∧
    (requests (handleMessage codec { amb with dbErr := some err } c msg)).length = 1 := by
  rcases htype with h | h
  · rw [handleMessage_code_change codec _ c msg h, handleMessage_code_change codec _ c msg h,
      requests_handleCodeChange, requests_handleCodeChange]
    exact ⟨rfl, rfl⟩
  · rw [handleMessage_chat codec _ c msg h, handleMessage_chat codec _ c msg h,
      requests_handleChat, requests_handleChat]
    exact ⟨rfl, rfl⟩

/-- Instance of C13: the code-table update fails while `alice1` sends a `code_change`
envelope. -/
theorem persistence_failure_keeps_broadcast_witness :
    (codeMsg.type = "code_change" ∨ codeMsg.type = "chat") ∧
    requests (handleMessage sampleCodec { sampleAmbient with dbErr := some "timeout" }
        alice1 codeMsg) =
      requests (handleMessage sampleCodec { sampleAmbient with dbErr := none } alice1 codeMsg) ∧
    (requests (handleMessage sampleCodec { sampleAmbient with dbErr := some "timeout" }
        alice1 codeMsg)).length = 1 :=
  ⟨by decide,
   persistence_failure_keeps_broadcast sampleCodec sampleAmbient alice1 codeMsg "timeout"
     (by decide)⟩

/-! ## Lock discipline -/

/-- C14, the code at the failing point: every write to the maps is made under the
exclusive lock or by the goroutine running `Run`, and the scans that decide first and
last connection (lines 83 and 128) race with no access; but the iteration of a room's
map in `BroadcastUserList` (line 54) is a read made with no lock held, after the
`RUnlock` of line 49, and it races with the insertion of line 90 and the deletions of
lines 118 and 170. -/
theorem userList_iteration_without_lock :
    (∀ a ∈ accesses, a.write = true → a.held = Held.exclusive ∨ a.who = Goroutine.run) ∧
    (∀ a ∈ accesses, a.line = 83 ∨ a.line = 128 → ∀ b ∈ accesses, races a b = false) ∧
    (¬ ∀ a ∈ accesses, a.write = false → a.held ≠ Held.nothing) ∧
    (∃ a ∈ accesses, a.line = 54 ∧ a.held = Held.nothing ∧
      ∃ b ∈ accesses, b.line = 90 ∧ races a b = true) ∧
    (∃ a ∈ accesses, a.line = 54 ∧ ∃ b ∈ accesses, b.line = 118 ∧ races a b = true) ∧
    (∃ a ∈ accesses, a.line = 54 ∧ ∃ b ∈ accesses, b.line = 170 ∧ races a b = true) := by
  refine ⟨by decide, by decide, by decide, by decide, by decide, by decide⟩

end RoomManager
